import Mathlib

/-!
# Verification of the render-diff engine (infra-tools/internal/renderdiff)

A shallow embedding of the render-diff engine of this repository:

* `diff.go`   — `ComponentDiff`, `computeDiff`, `HasDiff`, `FromComponentPath`,
  `countStats`;
* `engine.go` — `RepoBuilder`, `Engine`, `NewEngine`, `DiffResult`,
  `Engine.Run`, `Engine.RunProgressive`, `Engine.buildPair`.

Go `[]byte` values are modelled as `Option String` (`none` is the nil slice,
`some s` a slice holding the bytes of `s`); `string(b)` is `byteStr`.  Go
`string` is modelled as Lean `String`.  Fallible Go calls returning
`(T, error)` are modelled as `Except String T` (errors are reported as
strings by the engine).  The worker pool of `errgroup.Group` is modelled two
ways: the data flow of a run is a fold over the flattened job list (every
job runs to completion; `Wait` reports the first recorded error), and the
bounded-concurrency scheduling is a transition system `PoolStep` whose
`start` rule enforces the `SetLimit` semantics.

String scanning helpers (`strings.Split`, `strings.HasPrefix`,
`strings.SplitAfter`) are re-implemented structurally over `List Char` so
that every definition reduces inside the kernel.
-/

namespace RenderDiff

/-- Model of `strings.Split(s, "\x7b-\x7d")` specialised to the newline separator
(structural recursion over the character list of `s`). -/
def splitNlAux : List Char → List Char → List String
  | [], acc => [String.mk acc.reverse]
  | c :: rest, acc =>
    if c == '\n' then String.mk acc.reverse :: splitNlAux rest []
    else splitNlAux rest (c :: acc)

/-- Model of `strings.Split(s, "\n")`. -/
def splitNl (s : String) : List String :=
  splitNlAux s.data []

/-- Append a suffix to every element of a list except the last one.
Used to model `strings.SplitAfter(s, "\n")` from `splitNl`. -/
def appendExceptLast (suf : String) : List String → List String
  | [] => []
  | [last] => [last]
  | p :: rest => (p ++ suf) :: appendExceptLast suf rest

/-- Model of `strings.SplitAfter(s, "\n")`. -/
def splitAfterNl (s : String) : List String :=
  appendExceptLast "\n" (splitNl s)

/-- Append a suffix to the last element of a list (the list is non-empty in
every use). -/
def appendToLast (suf : String) : List String → List String
  | [] => []
  | [last] => [last ++ suf]
  | p :: rest => p :: appendToLast suf rest

/-- Whether the character list `s` starts with the character list `p`. -/
def listStartsWith : List Char → List Char → Bool
  | _, [] => true
  | [], _ :: _ => false
  | c :: s, p :: ps => c == p && listStartsWith s ps

/-- Model of `strings.HasPrefix(s, p)` (both strings are ASCII wherever the
program uses it, so the byte-level Go check agrees with the character-level
one). -/
def strStartsWith (s p : String) : Bool :=
  listStartsWith s.data p.data

/-- Concatenate a list of strings. -/
def strJoin (l : List String) : String :=
  l.foldl (fun acc s => acc ++ s) ""

end RenderDiff

namespace Difflib

/-!
Modelled from the spec: the diff algorithm itself lives in the external
library `go-difflib` (dependency `github.com/pmezard/go-difflib/difflib`),
whose sources are not part of this repository.  §4.2 of the specification
fixes its observable contract — a unified-diff text with 3 lines of
context, `---`/`+++` file headers labelled with the component path and a
"(base)"/"(head)" suffix, `@@` hunk markers and `+`/`-` line markers — and
the glossary fixes the unified-diff format.  The definitions below model
that library: a longest-matching-block sequence matcher over line lists
(`SplitLines` keeps each line's trailing newline and always appends a final
newline-only sentinel line), grouped opcodes with `Context` lines of
context, and the unified-diff writer.  The matcher is instantiated the way
the library's diff writer instantiates it: no junk predicate, and the
automatic-junk heuristic only active for second sequences of 200 lines or
more.  Loops are written with explicit fuel so every definition is a
computable `def`; the fuel supplied by the callers dominates every loop
bound of the library.
-/

open RenderDiff

/-- A matching block: `Size` lines of the first sequence starting at `A`
match the lines of the second sequence starting at `B`. -/
structure Match where
  A : Nat
  B : Nat
  Size : Nat
deriving DecidableEq, Repr

/-- An edit opcode over half-open line ranges `[I1, I2)` of the first
sequence and `[J1, J2)` of the second; `Tag` is one of
replace/delete/insert/equal. -/
structure OpCode where
  Tag : Char
  I1 : Nat
  I2 : Nat
  J1 : Nat
  J2 : Nat
deriving DecidableEq, Repr

/-- Input record of the unified-diff writer. -/
structure UnifiedDiff where
  A : List String
  FromFile : String
  FromDate : String
  B : List String
  ToFile : String
  ToDate : String
  Eol : String
  Context : Nat
deriving Repr

/-- Split a string into lines, each keeping its trailing newline, with a
final newline appended to the last piece. -/
def splitLines (s : String) : List String :=
  appendToLast "\n" (splitAfterNl s)

/-- Generic fuelled while-loop. -/
def whileLoop {σ : Type} (cond : σ → Bool) (step : σ → σ) : Nat → σ → σ
  | 0, s => s
  | fuel + 1, s => if cond s then whileLoop cond step fuel (step s) else s

/-- Lookup in an association list with default `0` (a Go `map[int]int`
read). -/
def lookupD (l : List (Nat × Nat)) (k : Nat) : Nat :=
  match l.find? (fun p => p.1 == k) with
  | some p => p.2
  | none => 0

/-- Ascending list of the indices at which `s` occurs in `b`. -/
def indicesOf (b : List String) (s : String) : List Nat :=
  b.enum.filterMap (fun p => if p.2 == s then some p.1 else none)

/-- The matcher's line-to-indices table for the second sequence, with the
automatic-junk purge: when the second sequence has at least 200 lines,
lines occurring more than `len/100 + 1` times are dropped from the table. -/
def b2jOf (b : List String) (s : String) : List Nat :=
  let idx := indicesOf b s
  let n := b.length
  if 200 ≤ n && n / 100 + 1 < idx.length then [] else idx

/-- Running best match of the longest-match search. -/
structure BestMatch where
  besti : Nat
  bestj : Nat
  bestsize : Nat
deriving Repr

/-- Inner loop of the longest-match search: scan the (ascending) occurrence
indices `js` of the current first-sequence line, skipping indices below
`blo` and stopping at the first index at or beyond `bhi`; `j2len` is the
previous row of the chain-length table and the new row is accumulated. -/
def flmScan (blo bhi i : Nat) (j2len : List (Nat × Nat)) :
    List Nat → List (Nat × Nat) → BestMatch → List (Nat × Nat) × BestMatch
  | [], row, best => (row, best)
  | j :: js, row, best =>
    if j < blo then flmScan blo bhi i j2len js row best
    else if bhi ≤ j then (row, best)
    else
      let k := (if j == 0 then 0 else lookupD j2len (j - 1)) + 1
      let row := (j, k) :: row
      let best := if best.bestsize < k then ⟨i + 1 - k, j + 1 - k, k⟩ else best
      flmScan blo bhi i j2len js row best

/-- Outer loop of the longest-match search over the first-sequence rows. -/
def flmRows (a : List String) (b2j : String → List Nat) (blo bhi : Nat) :
    List Nat → List (Nat × Nat) → BestMatch → BestMatch
  | [], _, best => best
  | i :: is, j2len, best =>
    let (row, best) := flmScan blo bhi i j2len (b2j (a.getD i "")) [] best
    flmRows a b2j blo bhi is row best

/-- Longest matching block of `a[alo:ahi]` and `b[blo:bhi]`, extended as
far as possible first over non-junk equal lines and then over junk equal
lines on both ends. -/
def findLongestMatch (a b : List String) (isJk : String → Bool)
    (b2j : String → List Nat) (alo ahi blo bhi : Nat) : Match :=
  let best := flmRows a b2j blo bhi (List.range' alo (ahi - alo)) [] ⟨alo, blo, 0⟩
  let fuel := ahi + bhi + 1
  let best := whileLoop
    (fun s : BestMatch => decide (alo < s.besti) && decide (blo < s.bestj) &&
      !isJk (b.getD (s.bestj - 1) "") &&
      (a.getD (s.besti - 1) "" == b.getD (s.bestj - 1) ""))
    (fun s => ⟨s.besti - 1, s.bestj - 1, s.bestsize + 1⟩) fuel best
  let best := whileLoop
    (fun s : BestMatch => decide (s.besti + s.bestsize < ahi) &&
      decide (s.bestj + s.bestsize < bhi) &&
      !isJk (b.getD (s.bestj + s.bestsize) "") &&
      (a.getD (s.besti + s.bestsize) "" == b.getD (s.bestj + s.bestsize) ""))
    (fun s => ⟨s.besti, s.bestj, s.bestsize + 1⟩) fuel best
  let best := whileLoop
    (fun s : BestMatch => decide (alo < s.besti) && decide (blo < s.bestj) &&
      isJk (b.getD (s.bestj - 1) "") &&
      (a.getD (s.besti - 1) "" == b.getD (s.bestj - 1) ""))
    (fun s => ⟨s.besti - 1, s.bestj - 1, s.bestsize + 1⟩) fuel best
  let best := whileLoop
    (fun s : BestMatch => decide (s.besti + s.bestsize < ahi) &&
      decide (s.bestj + s.bestsize < bhi) &&
      isJk (b.getD (s.bestj + s.bestsize) "") &&
      (a.getD (s.besti + s.bestsize) "" == b.getD (s.bestj + s.bestsize) ""))
    (fun s => ⟨s.besti, s.bestj, s.bestsize + 1⟩) fuel best
  ⟨best.besti, best.bestj, best.bestsize⟩

/-- Recursively collect matching blocks in order: find the longest match of
the current window, recurse left of it, record it, recurse right of it. -/
def matchBlocks (a b : List String) (isJk : String → Bool)
    (b2j : String → List Nat) :
    Nat → Nat → Nat → Nat → Nat → List Match → List Match
  | 0, _, _, _, _, matched => matched
  | fuel + 1, alo, ahi, blo, bhi, matched =>
    let m := findLongestMatch a b isJk b2j alo ahi blo bhi
    if 0 < m.Size then
      let matched :=
        if decide (alo < m.A) && decide (blo < m.B) then
          matchBlocks a b isJk b2j fuel alo m.A blo m.B matched
        else matched
      let matched := matched ++ [m]
      if decide (m.A + m.Size < ahi) && decide (m.B + m.Size < bhi) then
        matchBlocks a b isJk b2j fuel (m.A + m.Size) ahi (m.B + m.Size) bhi matched
      else matched
    else matched

/-- Collapse adjacent matching blocks, dropping the leading dummy block of
size zero. -/
def mergeAdjacent : List Match → Nat × Nat × Nat → List Match
  | [], (i1, j1, k1) => if 0 < k1 then [⟨i1, j1, k1⟩] else []
  | m :: ms, (i1, j1, k1) =>
    if i1 + k1 == m.A && j1 + k1 == m.B then mergeAdjacent ms (i1, j1, k1 + m.Size)
    else (if 0 < k1 then [⟨i1, j1, k1⟩] else []) ++ mergeAdjacent ms (m.A, m.B, m.Size)

/-- All matching blocks of `a` and `b`, in order, merged, terminated by the
zero-size sentinel block. -/
def getMatchingBlocks (a b : List String) : List Match :=
  let fuel := a.length + b.length + 1
  let matched := matchBlocks a b (fun _ => false) (b2jOf b) fuel 0 a.length 0 b.length []
  mergeAdjacent matched (0, 0, 0) ++ [⟨a.length, b.length, 0⟩]

/-- Turn the matching blocks into replace/delete/insert/equal opcodes. -/
def opCodesFrom : List Match → Nat → Nat → List OpCode
  | [], _, _ => []
  | m :: ms, i, j =>
    let tag : Char :=
      if decide (i < m.A) && decide (j < m.B) then 'r'
      else if i < m.A then 'd'
      else if j < m.B then 'i'
      else ' '
    let front : List OpCode := if tag != ' ' then [⟨tag, i, m.A, j, m.B⟩] else []
    let i2 := m.A + m.Size
    let j2 := m.B + m.Size
    let eqc : List OpCode := if 0 < m.Size then [⟨'e', m.A, i2, m.B, j2⟩] else []
    front ++ eqc ++ opCodesFrom ms i2 j2

/-- Opcodes of the edit sequence turning `a` into `b`. -/
def getOpCodes (a b : List String) : List OpCode :=
  opCodesFrom (getMatchingBlocks a b) 0 0

/-- Grouping loop: split the opcode list at every equal run longer than
`2*n`, keeping `n` context lines on each side of the cut. -/
def groupLoop (n nn : Nat) :
    List OpCode → List (List OpCode) → List OpCode → List (List OpCode)
  | [], groups, group =>
    let lone : Bool := match group with
      | [g] => g.Tag == 'e'
      | _ => false
    if !group.isEmpty && !lone then groups ++ [group] else groups
  | c :: cs, groups, group =>
    if c.Tag == 'e' && nn < c.I2 - c.I1 then
      let group := group ++ [⟨c.Tag, c.I1, min c.I2 (c.I1 + n), c.J1, min c.J2 (c.J1 + n)⟩]
      let groups := groups ++ [group]
      groupLoop n nn cs groups [⟨c.Tag, max c.I1 (c.I2 - n), c.I2, max c.J1 (c.J2 - n), c.J2⟩]
    else groupLoop n nn cs groups (group ++ [c])

/-- Group the opcodes into hunks with `n` lines of context, trimming the
leading and trailing equal runs to `n` lines. -/
def groupedOpCodes (codes : List OpCode) (n : Nat) : List (List OpCode) :=
  let codes := if codes.isEmpty then [⟨'e', 0, 1, 0, 1⟩] else codes
  let codes := match codes with
    | c :: rest =>
      (if c.Tag == 'e' then { c with I1 := max c.I1 (c.I2 - n), J1 := max c.J1 (c.J2 - n) }
       else c) :: rest
    | [] => []
  let codes := (match codes.reverse with
    | c :: rest =>
      (if c.Tag == 'e' then { c with I2 := min c.I2 (c.I1 + n), J2 := min c.J2 (c.J1 + n) }
       else c) :: rest
    | [] => []).reverse
  groupLoop n (n + n) codes [] []

/-- Unified-diff range header piece: one-based start plus length, with the
length omitted when it is exactly one. -/
def formatRangeUnified (start stop : Nat) : String :=
  let beginning := start + 1
  let length := stop - start
  if length == 1 then Nat.repr beginning
  else
    let beginning := if length == 0 then beginning - 1 else beginning
    Nat.repr beginning ++ "," ++ Nat.repr length

/-- The slice `l[i:j]` of a line list. -/
def sliceStrs (l : List String) (i j : Nat) : List String :=
  (l.drop i).take (j - i)

/-- Render one hunk: the `@@` header followed by the context, removed and
added lines of each opcode (every line already carries its newline). -/
def writeGroup (ud : UnifiedDiff) (eol : String) (g : List OpCode) : String :=
  match g with
  | [] => ""
  | first :: _ =>
    let last := g.getLastD first
    let header := "@@ -" ++ formatRangeUnified first.I1 last.I2 ++ " +" ++
      formatRangeUnified first.J1 last.J2 ++ " @@" ++ eol
    let body := g.foldl (fun acc c =>
      if c.Tag == 'e' then
        acc ++ strJoin ((sliceStrs ud.A c.I1 c.I2).map (fun l => " " ++ l))
      else
        let dels := if c.Tag == 'r' || c.Tag == 'd' then
          strJoin ((sliceStrs ud.A c.I1 c.I2).map (fun l => "-" ++ l)) else ""
        let ins := if c.Tag == 'r' || c.Tag == 'i' then
          strJoin ((sliceStrs ud.B c.J1 c.J2).map (fun l => "+" ++ l)) else ""
        acc ++ dels ++ ins) ""
    header ++ body

/-- The unified-diff text of `ud`: `---`/`+++` file headers (written only
when at least one hunk exists and the file labels are non-empty) followed
by the hunks. -/
def getUnifiedDiffString (ud : UnifiedDiff) : String :=
  let eol := if ud.Eol == "" then "\n" else ud.Eol
  let groups := groupedOpCodes (getOpCodes ud.A ud.B) ud.Context
  let headers :=
    if groups.isEmpty then ""
    else
      let fromDate := if ud.FromDate == "" then "" else "\t" ++ ud.FromDate
      let toDate := if ud.ToDate == "" then "" else "\t" ++ ud.ToDate
      let fromLine := if ud.FromFile != "" || ud.FromDate != "" then
        "--- " ++ ud.FromFile ++ fromDate ++ eol else ""
      let toLine := if ud.ToFile != "" || ud.ToDate != "" then
        "+++ " ++ ud.ToFile ++ toDate ++ eol else ""
      fromLine ++ toLine
  headers ++ strJoin (groups.map (writeGroup ud eol))

/-- The library call used by `computeDiff`: it writes into an in-memory
buffer whose writes cannot fail, so the error result of its Go signature is
never produced. -/
def difflibCall (ud : UnifiedDiff) : Except String String :=
  .ok (getUnifiedDiffString ud)

end Difflib

namespace RenderDiff

/-- Modelled from the spec: `detector.Environment` (package
`internal/detector` is not under the sources) is an opaque label such as
"staging" or "production", used only as a grouping key and string value. -/
abbrev Environment := String

/-- Modelled from the spec: `appset.ComponentPath` (package
`internal/appset` is not under the sources) is a relative directory path
plus an optional cluster-specific sub-directory qualifier. -/
structure ComponentPath where
  Path : String
  ClusterDir : String
deriving DecidableEq, Repr

/-- `ComponentDiff` of `diff.go`: the diff result for a single
(component, environment) pair.  `BaseYAML`/`HeadYAML` are Go byte slices:
`none` is the nil slice (component absent on that ref). -/
structure ComponentDiff where
  Path : String
  ClusterDir : String
  Env : Environment
  BaseYAML : Option String
  HeadYAML : Option String
  Diff : String
  Added : Nat
  Removed : Nat
deriving DecidableEq, Repr

/-- Go's `string(b)` on a byte slice: the nil slice renders as the empty
string. -/
def byteStr : Option String → String
  | none => ""
  | some s => s

/-- Loop body of `countStats`: skip an empty line, otherwise dispatch on
the line's first character, not counting `+++`/`---` header lines. -/
def countStep (acc : Nat × Nat) (line : String) : Nat × Nat :=
  match line.data with
  | [] => acc
  | c :: _ =>
    if c == '+' then
      if strStartsWith line "+++" then acc else (acc.1 + 1, acc.2)
    else if c == '-' then
      if strStartsWith line "---" then acc else (acc.1, acc.2 + 1)
    else acc

/-- `countStats` of `diff.go`: count the added and removed lines of a
unified diff — a non-empty line counts as added when its first character
is the insertion marker and the line is not a `+++` header line, and
symmetrically for removed lines. -/
def countStats (diff : String) : Nat × Nat :=
  (splitNl diff).foldl countStep (0, 0)

/-- `ComponentDiff.computeDiff` of `diff.go`: populate `Diff`, `Added` and
`Removed` from the string renderings of `BaseYAML` and `HeadYAML`,
returning unchanged when the renderings are byte-identical.  The unified
diff is produced by the external diff library; the call is passed in as
`dalgo` (the engine links it to `Difflib.difflibCall`). -/
def ComponentDiff.computeDiff (dalgo : Difflib.UnifiedDiff → Except String String)
    (cd : ComponentDiff) : Except String ComponentDiff :=
  let baseStr := byteStr cd.BaseYAML
  let headStr := byteStr cd.HeadYAML
  if baseStr = headStr then .ok cd
  else
    let ud : Difflib.UnifiedDiff :=
      { A := Difflib.splitLines baseStr
        B := Difflib.splitLines headStr
        FromFile := cd.Path ++ " (base)"
        ToFile := cd.Path ++ " (head)"
        FromDate := "", ToDate := "", Eol := "", Context := 3 }
    match dalgo ud with
    | .error e => .error e
    | .ok text =>
      let stats := countStats text
      .ok { cd with Diff := text, Added := stats.1, Removed := stats.2 }

/-- `ComponentDiff.HasDiff` of `diff.go`: whether the component has a
non-empty diff. -/
def ComponentDiff.HasDiff (cd : ComponentDiff) : Bool :=
  cd.Diff != ""

/-- `FromComponentPath` of `diff.go`: the fresh shell for a component path
and environment (all other fields at their zero values). -/
def FromComponentPath (cp : ComponentPath) (env : Environment) : ComponentDiff :=
  { Path := cp.Path
    ClusterDir := cp.ClusterDir
    Env := env
    BaseYAML := none
    HeadYAML := none
    Diff := ""
    Added := 0
    Removed := 0 }

/-- `RepoBuilder` of `engine.go`: directory existence and kustomization
building against one fixed snapshot.  `BuildKustomization` returns a Go
`([]byte, error)` pair: `Except String (Option String)`. -/
structure RepoBuilder where
  DirExists : String → Bool
  BuildKustomization : String → Except String (Option String)

/-- `Engine` of `engine.go`. -/
structure Engine where
  head : RepoBuilder
  base : RepoBuilder
  concurrency : Int

/-- `NewEngine` of `engine.go`: concurrency defaults to the number of CPUs
(`runtime.NumCPU()`, passed here as the explicit parameter `numCPU`
describing the machine) when the given value is not positive. -/
def NewEngine (head base : RepoBuilder) (concurrency : Int) (numCPU : Int) : Engine :=
  if concurrency ≤ 0 then ⟨head, base, numCPU⟩ else ⟨head, base, concurrency⟩

/-- `DiffResult` of `engine.go`. -/
structure DiffResult where
  Diffs : List ComponentDiff
  TotalAdded : Nat
  TotalRemoved : Nat
deriving DecidableEq, Repr

/-- `Engine.buildPair` of `engine.go`: build the kustomization on both
refs, populating `HeadYAML` then `BaseYAML`; a build error aborts this
component with a wrapped message naming the ref, and a component whose
byte slices are both nil after building is a distinct error. -/
def Engine.buildPair (e : Engine) (cd : ComponentDiff) : Except String ComponentDiff :=
  match (if e.head.DirExists cd.Path then
          match e.head.BuildKustomization cd.Path with
          | .error err => .error ("building " ++ cd.Path ++ " on HEAD: " ++ err)
          | .ok b => .ok { cd with HeadYAML := b }
         else .ok cd : Except String ComponentDiff) with
  | .error err => .error err
  | .ok cd =>
    match (if e.base.DirExists cd.Path then
            match e.base.BuildKustomization cd.Path with
            | .error err => .error ("building " ++ cd.Path ++ " on base: " ++ err)
            | .ok b => .ok { cd with BaseYAML := b }
           else .ok cd : Except String ComponentDiff) with
    | .error err => .error err
    | .ok cd =>
      if cd.HeadYAML.isNone && cd.BaseYAML.isNone then
        .error ("component " ++ cd.Path ++ " does not exist on either ref")
      else .ok cd

/-- One (component, environment) job of a run. -/
structure Job where
  cp : ComponentPath
  env : Environment
deriving DecidableEq, Repr

/-- Flatten the affected mapping into the job list.  The Go map is
modelled as an association list whose order stands for the map's
(unspecified) iteration order. -/
def flattenAffected (affected : List (Environment × List ComponentPath)) : List Job :=
  (affected.map (fun p => p.2.map (fun cp => Job.mk cp p.1))).flatten

/-- The structured warning the engine logs when it skips a component whose
build failed. -/
def buildWarn (path : String) (env : Environment) (err : String) : String :=
  "skipping component due to build error path=" ++ path ++ " env=" ++ env ++ " err=" ++ err

/-- The fatal error message wrapping a diff-computation failure. -/
def diffFatalMsg (path : String) (env : Environment) (err : String) : String :=
  "computing diff for " ++ path ++ " (" ++ env ++ "): " ++ err

/-- Outcome of one job's goroutine body, shared by `Run` and
`RunProgressive`: a build failure is logged and the job completes without
error and without a result; a diff-computation failure is the goroutine's
returned error; otherwise the finished component either has a diff (and is
appended to the shared results) or has none. -/
inductive JobOutcome where
  | skipped (warn : String)
  | fatal (msg : String)
  | noDiff (cd : ComponentDiff)
  | diffed (cd : ComponentDiff)
deriving DecidableEq, Repr

/-- The goroutine body of `Engine.Run`/`Engine.RunProgressive` for one
job. -/
def processJob (e : Engine) (dalgo : Difflib.UnifiedDiff → Except String String)
    (j : Job) : JobOutcome :=
  match e.buildPair (FromComponentPath j.cp j.env) with
  | .error err => .skipped (buildWarn j.cp.Path j.env err)
  | .ok cd =>
    match cd.computeDiff dalgo with
    | .error err => .fatal (diffFatalMsg j.cp.Path j.env err)
    | .ok cd => if cd.HasDiff then .diffed cd else .noDiff cd

/-- The components a job list appends to the shared result slice, in
completion order (the sequential model completes jobs in list order; the
claims proved below do not depend on a particular interleaving). -/
def jobResults (e : Engine) (dalgo : Difflib.UnifiedDiff → Except String String)
    (jobs : List Job) : List ComponentDiff :=
  jobs.filterMap (fun j => match processJob e dalgo j with
    | .diffed cd => some cd
    | _ => none)

/-- The goroutine errors of a job list, in completion order; `Wait`
reports the first of them.  With a plain `errgroup.Group` every goroutine
still runs after a failure. -/
def jobErrors (e : Engine) (dalgo : Difflib.UnifiedDiff → Except String String)
    (jobs : List Job) : List String :=
  jobs.filterMap (fun j => match processJob e dalgo j with
    | .fatal msg => some msg
    | _ => none)

/-- `Engine.Run` of `engine.go`: flatten the affected mapping, return the
empty result immediately when there are no jobs, otherwise run every job,
abort with the first goroutine error if any, and aggregate the collected
diffs and their added/removed totals. -/
def Engine.Run (e : Engine) (dalgo : Difflib.UnifiedDiff → Except String String)
    (affected : List (Environment × List ComponentPath)) : Except String DiffResult :=
  let jobs := flattenAffected affected
  if jobs.isEmpty then .ok ⟨[], 0, 0⟩
  else
    match jobErrors e dalgo jobs with
    | err :: _ => .error err
    | [] =>
      let results := jobResults e dalgo jobs
      .ok ⟨results, (results.map ComponentDiff.Added).sum,
           (results.map ComponentDiff.Removed).sum⟩

/-- An observable event on the progressive output channel. -/
inductive ChanEvent where
  | send (cd : ComponentDiff)
  | close
deriving DecidableEq, Repr

/-- `Engine.RunProgressive` of `engine.go`: like `Run`, but each finished
diff is sent on the output channel at the moment it is finalized, and the
deferred close of the channel runs on every return path, after all jobs
have completed.  The second component is the event trace of the channel. -/
def Engine.RunProgressive (e : Engine)
    (dalgo : Difflib.UnifiedDiff → Except String String)
    (affected : List (Environment × List ComponentPath)) :
    Except String DiffResult × List ChanEvent :=
  let jobs := flattenAffected affected
  if jobs.isEmpty then (.ok ⟨[], 0, 0⟩, [.close])
  else
    let results := jobResults e dalgo jobs
    let trace := results.map ChanEvent.send ++ [.close]
    match jobErrors e dalgo jobs with
    | err :: _ => (.error err, trace)
    | [] =>
      (.ok ⟨results, (results.map ComponentDiff.Added).sum,
            (results.map ComponentDiff.Removed).sum⟩, trace)

/-- The fully built and diffed component of a job, when both stages
succeed: the declarative per-job description that `Run`'s result is
measured against. -/
def builtComponent (e : Engine) (dalgo : Difflib.UnifiedDiff → Except String String)
    (j : Job) : Option ComponentDiff :=
  match e.buildPair (FromComponentPath j.cp j.env) with
  | .error _ => none
  | .ok cd =>
    match cd.computeDiff dalgo with
    | .error _ => none
    | .ok cd => some cd

/-- State of the worker pool: counts of jobs not yet started, currently
executing, and finished. -/
structure PoolState where
  pending : Nat
  running : Nat
  done : Nat
deriving DecidableEq, Repr

/-- Scheduling semantics of `errgroup.Group` after `SetLimit(limit)`: a
pending job may start only when fewer than `limit` jobs are running (a
negative limit means no limit at all), and a running job may finish.  No
other transition touches the pool. -/
inductive PoolStep (limit : Int) : PoolState → PoolState → Prop where
  | start (p r d : Nat) (hp : 0 < p)
      (hl : limit < 0 ∨ (r : Int) < limit) :
      PoolStep limit ⟨p, r, d⟩ ⟨p - 1, r + 1, d⟩
  | finish (p r d : Nat) (hr : 0 < r) :
      PoolStep limit ⟨p, r, d⟩ ⟨p, r - 1, d + 1⟩

/-- Reachability under the pool's step relation. -/
inductive PoolReachable (limit : Int) : PoolState → PoolState → Prop where
  | refl (s : PoolState) : PoolReachable limit s s
  | step {s t u : PoolState} : PoolReachable limit s t → PoolStep limit t u →
      PoolReachable limit s u

end RenderDiff

namespace RenderDiff

/-- A builder on whose snapshot no component exists (builds are never
reached). -/
def ghostBuilder : RepoBuilder :=
  ⟨fun _ => false, fun _ => .error "unused"⟩

/-- The component path of the specification's concrete scenarios. -/
def fooCp : ComponentPath := ⟨"components/foo", ""⟩

/-- The single job of the concrete scenarios. -/
def fooJob : Job := ⟨fooCp, "staging"⟩

/-- The affected mapping of the concrete scenarios. -/
def fooAffected : List (Environment × List ComponentPath) :=
  [("staging", [fooCp])]

/-- Engine of the specification's first concrete scenario: the component
exists on both refs, HEAD renders "a: 1\n" and base renders "a: 2\n". -/
def fooEngine : Engine :=
  NewEngine ⟨fun _ => true, fun _ => .ok (some "a: 1\n")⟩
    ⟨fun _ => true, fun _ => .ok (some "a: 2\n")⟩ 1 4

/-- The component as `buildPair` leaves it in the first concrete
scenario. -/
def fooBuiltCd : ComponentDiff :=
  ⟨"components/foo", "", "staging", some "a: 2\n", some "a: 1\n", "", 0, 0⟩

/-- The unified diff of the first concrete scenario. -/
def fooDiffText : String :=
  "--- components/foo (base)\n+++ components/foo (head)\n@@ -1,2 +1,2 @@\n-a: 2\n+a: 1\n \n"

/-- The finished component of the first concrete scenario. -/
def fooCd : ComponentDiff :=
  ⟨"components/foo", "", "staging", some "a: 2\n", some "a: 1\n", fooDiffText, 1, 1⟩

/-- The run result of the first concrete scenario. -/
def fooResult : DiffResult := ⟨[fooCd], 1, 1⟩

/-- A diff-algorithm stand-in that always fails, exercising the engine's
handling of the error return of the library call. -/
def failAlgo : Difflib.UnifiedDiff → Except String String :=
  fun _ => .error "diff exploded"

/-- Engine whose HEAD builder fails rendering every component. -/
def brokenEngine : Engine :=
  NewEngine ⟨fun _ => true, fun _ => .error "kustomize build failed"⟩ ghostBuilder 1 4

/-- Engine on whose two snapshots no component exists at all. -/
def ghostEngine : Engine := NewEngine ghostBuilder ghostBuilder 1 4

/-- Component path of the second concrete scenario (present only at
HEAD). -/
def barCp : ComponentPath := ⟨"components/bar", ""⟩

/-- Affected mapping of the second concrete scenario. -/
def barAffected : List (Environment × List ComponentPath) :=
  [("staging", [barCp])]

/-- Engine of the second concrete scenario: base `DirExists` is false and
HEAD builds "x: y\n". -/
def barEngine : Engine :=
  NewEngine ⟨fun _ => true, fun _ => .ok (some "x: y\n")⟩ ghostBuilder 1 4

/-- The unified diff of the second concrete scenario. -/
def barDiffText : String :=
  "--- components/bar (base)\n+++ components/bar (head)\n@@ -1 +1,2 @@\n+x: y\n \n"

/-- The finished component of the second concrete scenario. -/
def barCd : ComponentDiff :=
  ⟨"components/bar", "", "staging", none, some "x: y\n", barDiffText, 1, 0⟩

/-- The run result of the second concrete scenario. -/
def barResult : DiffResult := ⟨[barCd], 1, 0⟩

/-- Component path for the empty-build scenario. -/
def bazCp : ComponentPath := ⟨"components/baz", ""⟩

/-- Job for the empty-build scenario. -/
def bazJob : Job := ⟨bazCp, "staging"⟩

/-- Engine whose component exists only at HEAD and renders to empty
(non-nil) bytes there. -/
def emptyBuildEngine : Engine :=
  NewEngine ⟨fun _ => true, fun _ => .ok (some "")⟩ ghostBuilder 1 4

/-- The component the empty-build scenario produces. -/
def bazCd : ComponentDiff :=
  ⟨"components/baz", "", "staging", none, some "", "", 0, 0⟩

/-- Model of the claim's added-line description: a non-empty line starting
with the insertion marker that is not a `+++` file-header line. -/
def isAddedLine (l : String) : Bool :=
  !l.data.isEmpty && listStartsWith l.data ['+'] &&
    !listStartsWith l.data ['+', '+', '+']

/-- Model of the claim's removed-line description: a non-empty line
starting with the deletion marker that is not a `---` file-header line. -/
def isRemovedLine (l : String) : Bool :=
  !l.data.isEmpty && listStartsWith l.data ['-'] &&
    !listStartsWith l.data ['-', '-', '-']

/-- Component path of the no-trailing-newline head-only scenario. -/
def quxCp : ComponentPath := ⟨"components/qux", ""⟩

/-- Affected mapping of the no-trailing-newline head-only scenario. -/
def quxAffected : List (Environment × List ComponentPath) :=
  [("staging", [quxCp])]

/-- Engine whose component exists only at HEAD and renders there to bytes
that do not end in a newline. -/
def quxEngine : Engine :=
  NewEngine ⟨fun _ => true, fun _ => .ok (some "x: y")⟩ ghostBuilder 1 4

/-- The unified diff of the no-trailing-newline scenario: the blank
sentinel line of the empty base is removed and the content line added. -/
def quxDiffText : String :=
  "--- components/qux (base)\n+++ components/qux (head)\n@@ -1 +1 @@\n-\n+x: y\n"

/-- The finished component of the no-trailing-newline scenario. -/
def quxCd : ComponentDiff :=
  ⟨"components/qux", "", "staging", none, some "x: y", quxDiffText, 1, 1⟩

/-- Job of the second concrete scenario (component present only at HEAD). -/
def barJob : Job := ⟨barCp, "staging"⟩

/-- Component path of the removal-direction scenario. -/
def remCp : ComponentPath := ⟨"components/rem", ""⟩

/-- Job of the removal-direction scenario. -/
def remJob : Job := ⟨remCp, "staging"⟩

/-- Engine whose component exists only on the base snapshot, rendering
there to "a: 1\n": the removed-component direction. -/
def remEngine : Engine :=
  NewEngine ghostBuilder ⟨fun _ => true, fun _ => .ok (some "a: 1\n")⟩ 1 4

/-- The unified diff of the removal-direction scenario. -/
def remDiffText : String :=
  "--- components/rem (base)\n+++ components/rem (head)\n@@ -1,2 +1 @@\n-a: 1\n \n"

/-- The finished component of the removal-direction scenario. -/
def remCd : ComponentDiff :=
  ⟨"components/rem", "", "staging", some "a: 1\n", none, remDiffText, 0, 1⟩

end RenderDiff

namespace Difflib

open RenderDiff

/-- Two line sequences share a genuine line: some in-range position of each
holds the same line. -/
def SharedLine (a b : List String) : Prop :=
  ∃ x y, x < a.length ∧ y < b.length ∧ a.getD x "" = b.getD y ""

/-- Invariant of the longest-match search state for the window
`a[alo:ahi] × b[blo:bhi]`: the state is either still the initial one, or it
records a non-trivial candidate that fits in the window and was witnessed
by a genuine shared line. -/
def FlmInv (a b : List String) (alo ahi blo bhi : Nat) (s : BestMatch) : Prop :=
  s = ⟨alo, blo, 0⟩ ∨
    (0 < s.bestsize ∧ s.besti + s.bestsize ≤ ahi ∧ s.bestj + s.bestsize ≤ bhi ∧
      SharedLine a b)

/-- A matching block the recursive search may report: non-trivial, within
both sequences, and witnessed by a genuine shared line. -/
def GoodBlock (a b : List String) (m : Match) : Prop :=
  0 < m.Size ∧ m.A + m.Size ≤ a.length ∧ m.B + m.Size ≤ b.length ∧ SharedLine a b

end Difflib

namespace RenderDiff

theorem processJob_diffed_eq (e : Engine) (dalgo : Difflib.UnifiedDiff → Except String String)
    (j : Job) :
    (match processJob e dalgo j with
      | .diffed cd => some cd
      | _ => none) =
      Option.filter ComponentDiff.HasDiff (builtComponent e dalgo j) := by
  unfold processJob builtComponent
  cases hb : e.buildPair (FromComponentPath j.cp j.env) with
  | error err => simp [hb, Option.filter]
  | ok cd =>
    simp only [hb]
    cases hc : cd.computeDiff dalgo with
    | error err => simp [hc, Option.filter]
    | ok cd2 =>
      simp only [hc]
      cases hd : cd2.HasDiff <;> simp [hd, Option.filter]

theorem jobResults_eq_filterMap (e : Engine) (dalgo : Difflib.UnifiedDiff → Except String String)
    (jobs : List Job) :
    jobResults e dalgo jobs =
      jobs.filterMap (fun j => Option.filter ComponentDiff.HasDiff (builtComponent e dalgo j)) := by
  unfold jobResults
  exact congrFun (congrArg _ (funext (fun j => processJob_diffed_eq e dalgo j))) jobs

theorem mem_jobResults_hasDiff (e : Engine) (dalgo : Difflib.UnifiedDiff → Except String String)
    (jobs : List Job) (cd : ComponentDiff) (h : cd ∈ jobResults e dalgo jobs) :
    cd.HasDiff = true := by
  rw [jobResults_eq_filterMap] at h
  rcases List.mem_filterMap.mp h with ⟨j, _, hj⟩
  cases hbc : builtComponent e dalgo j with
  | none => rw [hbc] at hj; simp [Option.filter] at hj
  | some cd2 =>
    rw [hbc] at hj
    simp only [Option.filter] at hj
    by_cases hd : cd2.HasDiff = true
    · rw [if_pos hd] at hj
      cases hj
      exact hd
    · rw [if_neg hd] at hj
      cases hj

theorem Run_eq (e : Engine) (dalgo : Difflib.UnifiedDiff → Except String String)
    (affected : List (Environment × List ComponentPath)) :
    e.Run dalgo affected =
      match jobErrors e dalgo (flattenAffected affected) with
      | err :: _ => .error err
      | [] =>
        .ok ⟨jobResults e dalgo (flattenAffected affected),
             ((jobResults e dalgo (flattenAffected affected)).map ComponentDiff.Added).sum,
             ((jobResults e dalgo (flattenAffected affected)).map ComponentDiff.Removed).sum⟩ := by
  unfold Engine.Run
  by_cases h : (flattenAffected affected).isEmpty
  · rw [List.isEmpty_iff] at h
    simp [h, jobErrors, jobResults]
  · simp [h]

theorem RunProgressive_eq (e : Engine) (dalgo : Difflib.UnifiedDiff → Except String String)
    (affected : List (Environment × List ComponentPath)) :
    e.RunProgressive dalgo affected =
      (match jobErrors e dalgo (flattenAffected affected) with
       | err :: _ => .error err
       | [] =>
         .ok ⟨jobResults e dalgo (flattenAffected affected),
              ((jobResults e dalgo (flattenAffected affected)).map ComponentDiff.Added).sum,
              ((jobResults e dalgo (flattenAffected affected)).map ComponentDiff.Removed).sum⟩,
       (jobResults e dalgo (flattenAffected affected)).map ChanEvent.send ++ [ChanEvent.close]) := by
  unfold Engine.RunProgressive
  by_cases h : (flattenAffected affected).isEmpty
  · rw [List.isEmpty_iff] at h
    simp [h, jobErrors, jobResults]
  · simp only [h, Bool.false_eq_true, if_false]
    cases herr : jobErrors e dalgo (flattenAffected affected) <;> simp [herr]

theorem run_ok_spec (e : Engine) (dalgo : Difflib.UnifiedDiff → Except String String)
    (affected : List (Environment × List ComponentPath)) (dr : DiffResult)
    (h : e.Run dalgo affected = .ok dr) :
    dr.Diffs = jobResults e dalgo (flattenAffected affected) ∧
    dr.TotalAdded = (dr.Diffs.map ComponentDiff.Added).sum ∧
    dr.TotalRemoved = (dr.Diffs.map ComponentDiff.Removed).sum := by
  rw [Run_eq] at h
  cases herr : jobErrors e dalgo (flattenAffected affected) with
  | cons err rest => rw [herr] at h; cases h
  | nil =>
    rw [herr] at h
    cases h
    exact ⟨rfl, rfl, rfl⟩

theorem run_error_spec (e : Engine) (dalgo : Difflib.UnifiedDiff → Except String String)
    (affected : List (Environment × List ComponentPath)) (msg : String)
    (h : e.Run dalgo affected = .error msg) :
    ∃ j ∈ flattenAffected affected, processJob e dalgo j = .fatal msg := by
  rw [Run_eq] at h
  cases herr : jobErrors e dalgo (flattenAffected affected) with
  | nil => rw [herr] at h; cases h
  | cons err rest =>
    rw [herr] at h
    cases h
    have hmem : msg ∈ jobErrors e dalgo (flattenAffected affected) := by
      rw [herr]; exact List.mem_cons_self _ _
    unfold jobErrors at hmem
    rcases List.mem_filterMap.mp hmem with ⟨j, hj, hfat⟩
    refine ⟨j, hj, ?_⟩
    cases hpj : processJob e dalgo j <;> rw [hpj] at hfat <;> simp at hfat
    rw [hfat]

theorem processJob_fatal_shape (e : Engine) (dalgo : Difflib.UnifiedDiff → Except String String)
    (j : Job) (msg : String) (h : processJob e dalgo j = .fatal msg) :
    ∃ cd derr, e.buildPair (FromComponentPath j.cp j.env) = .ok cd ∧
      cd.computeDiff dalgo = .error derr ∧ msg = diffFatalMsg j.cp.Path j.env derr := by
  unfold processJob at h
  cases hb : e.buildPair (FromComponentPath j.cp j.env) with
  | error err => simp only [hb] at h; cases h
  | ok cd =>
    simp only [hb] at h
    cases hc : cd.computeDiff dalgo with
    | error derr =>
      simp only [hc] at h
      cases h
      exact ⟨cd, derr, rfl, hc, rfl⟩
    | ok cd2 =>
      simp only [hc] at h
      cases hd : cd2.HasDiff <;> simp [hd] at h

theorem processJob_of_diffError (e : Engine) (dalgo : Difflib.UnifiedDiff → Except String String)
    (j : Job) (cd : ComponentDiff) (derr : String)
    (h1 : e.buildPair (FromComponentPath j.cp j.env) = .ok cd)
    (h2 : cd.computeDiff dalgo = .error derr) :
    processJob e dalgo j = .fatal (diffFatalMsg j.cp.Path j.env derr) := by
  unfold processJob
  simp only [h1, h2]

theorem sends_count_close (l : List ComponentDiff) :
    (l.map ChanEvent.send).count ChanEvent.close = 0 := by
  induction l with
  | nil => rfl
  | cons a t ih =>
    simp only [List.map_cons, List.count_cons, ih]
    rfl

end RenderDiff

namespace RenderDiff

theorem countStep_eq (a r : Nat) (l : String) :
    countStep (a, r) l =
      (a + (if isAddedLine l then 1 else 0),
       r + (if isRemovedLine l then 1 else 0)) := by
  unfold countStep
  cases hl : l.data with
  | nil => simp [isAddedLine, isRemovedLine, hl]
  | cons c cs =>
    have h3p : strStartsWith l "+++" = listStartsWith l.data ['+', '+', '+'] := rfl
    have h3m : strStartsWith l "---" = listStartsWith l.data ['-', '-', '-'] := rfl
    simp only [isAddedLine, isRemovedLine, h3p, h3m, hl, List.isEmpty_cons,
      Bool.not_false, Bool.true_and, listStartsWith, Bool.and_true]
    by_cases hp : c = '+'
    · subst hp
      simp only [beq_self_eq_true, if_true, Bool.true_and]
      have hm : (('+' : Char) == '-') = false := by decide
      simp only [hm, Bool.false_and, Bool.not_false, if_false]
      cases h2 : listStartsWith cs ['+', '+'] <;> simp
    · have hp2 : (c == '+') = false := by simp [hp]
      simp only [hp2, Bool.false_and, Bool.not_false, if_false]
      by_cases hm : c = '-'
      · subst hm
        simp only [beq_self_eq_true, if_true, Bool.true_and]
        cases h2 : listStartsWith cs ['-', '-'] <;> simp
      · have hm2 : (c == '-') = false := by simp [hm]
        simp [hp2, hm2]

theorem countStats_fold (t : List String) (a r : Nat) :
    t.foldl countStep (a, r) =
      (a + (t.filter isAddedLine).length, r + (t.filter isRemovedLine).length) := by
  induction t generalizing a r with
  | nil => simp
  | cons l t ih =>
    rw [List.foldl_cons, countStep_eq, ih, List.filter_cons, List.filter_cons]
    by_cases ha : isAddedLine l = true <;> by_cases hr : isRemovedLine l = true <;>
      simp [ha, hr] <;> omega

end RenderDiff

namespace RenderDiff

/-- C1 (amended): a per-component build failure never aborts the run — the
failing job completes as a logged-and-skipped outcome carrying the warning,
and any run-level abort originates from a diff-computation failure, never
from a build failure.  (The engine records no Error field: the failed
component is dropped from the output after the warning is logged.) -/
theorem buildFailure_skipped_nonfatal (e : Engine)
    (dalgo : Difflib.UnifiedDiff → Except String String) (j : Job) (err : String)
    (h : e.buildPair (FromComponentPath j.cp j.env) = .error err) :
    processJob e dalgo j = .skipped (buildWarn j.cp.Path j.env err) ∧
    ∀ affected msg, e.Run dalgo affected = .error msg →
      ∃ j2 ∈ flattenAffected affected, ∃ cd derr,
        e.buildPair (FromComponentPath j2.cp j2.env) = .ok cd ∧
        cd.computeDiff dalgo = .error derr ∧
        msg = diffFatalMsg j2.cp.Path j2.env derr := by
  constructor
  · unfold processJob
    simp only [h]
  · intro affected msg hrun
    rcases run_error_spec e dalgo affected msg hrun with ⟨j2, hj2, hfat⟩
    rcases processJob_fatal_shape e dalgo j2 msg hfat with ⟨cd, derr, hb, hc, hm⟩
    exact ⟨j2, hj2, cd, derr, hb, hc, hm⟩

/-- Witness for C1's amended theorem at the concrete failing-HEAD engine. -/
theorem buildFailure_skipped_nonfatal_witness :
    processJob brokenEngine Difflib.difflibCall fooJob =
      .skipped (buildWarn "components/foo" "staging"
        "building components/foo on HEAD: kustomize build failed") :=
  (buildFailure_skipped_nonfatal brokenEngine Difflib.difflibCall fooJob
    "building components/foo on HEAD: kustomize build failed" rfl).1

/-- C1 counterexample: with a HEAD build failure the run succeeds but the
failed component appears nowhere in the output — it is not recorded with
an Error field (the record has no such field), refuting the claim that it
still appears in the output. -/
theorem buildFailure_dropped_cex :
    brokenEngine.buildPair (FromComponentPath fooCp "staging") =
      .error "building components/foo on HEAD: kustomize build failed" ∧
    brokenEngine.Run Difflib.difflibCall fooAffected = .ok ⟨[], 0, 0⟩ :=
  ⟨rfl, rfl⟩

/-- C2: for every successful run the returned collection is exactly the
fully built components with a non-empty diff (components whose build or
diff stage failed contribute nothing), every listed component has
`HasDiff`, and the totals are the sums of the listed components' added and
removed counts. -/
theorem run_diffs_exactly (e : Engine)
    (dalgo : Difflib.UnifiedDiff → Except String String)
    (affected : List (Environment × List ComponentPath)) (dr : DiffResult)
    (h : e.Run dalgo affected = .ok dr) :
    dr.Diffs = (flattenAffected affected).filterMap
        (fun j => Option.filter ComponentDiff.HasDiff (builtComponent e dalgo j)) ∧
    (∀ cd ∈ dr.Diffs, cd.HasDiff = true) ∧
    dr.TotalAdded = (dr.Diffs.map ComponentDiff.Added).sum ∧
    dr.TotalRemoved = (dr.Diffs.map ComponentDiff.Removed).sum := by
  obtain ⟨hd, ha, hr⟩ := run_ok_spec e dalgo affected dr h
  refine ⟨by rw [hd, jobResults_eq_filterMap], ?_, ha, hr⟩
  intro cd hcd
  rw [hd] at hcd
  exact mem_jobResults_hasDiff e dalgo _ cd hcd

/-- Witness for C2 at the concrete two-sided scenario. -/
theorem run_diffs_exactly_witness :
    fooResult.Diffs = (flattenAffected fooAffected).filterMap
        (fun j => Option.filter ComponentDiff.HasDiff
          (builtComponent fooEngine Difflib.difflibCall j)) ∧
    fooResult.TotalAdded = (fooResult.Diffs.map ComponentDiff.Added).sum ∧
    fooResult.TotalRemoved = (fooResult.Diffs.map ComponentDiff.Removed).sum := by
  have h := run_diffs_exactly fooEngine Difflib.difflibCall fooAffected fooResult rfl
  exact ⟨h.1, h.2.2.1, h.2.2.2⟩

/-- C3: byte-identical renderings of the two sides (both empty and both
absent included) short-circuit `computeDiff` for every diff algorithm — the
component comes back unchanged, with empty `Diff` and zero counts. -/
theorem computeDiff_identical (dalgo : Difflib.UnifiedDiff → Except String String)
    (b h : Option String) (cp : ComponentPath) (env : Environment)
    (hbh : byteStr b = byteStr h) :
    ComponentDiff.computeDiff dalgo
        { FromComponentPath cp env with BaseYAML := b, HeadYAML := h } =
      .ok { FromComponentPath cp env with BaseYAML := b, HeadYAML := h } ∧
    ({ FromComponentPath cp env with BaseYAML := b, HeadYAML := h } : ComponentDiff).Diff = "" ∧
    ({ FromComponentPath cp env with BaseYAML := b, HeadYAML := h } : ComponentDiff).Added = 0 ∧
    ({ FromComponentPath cp env with BaseYAML := b, HeadYAML := h } : ComponentDiff).Removed = 0 := by
  refine ⟨?_, rfl, rfl, rfl⟩
  unfold ComponentDiff.computeDiff
  simp [FromComponentPath, hbh]

/-- Witness for C3 with both sides absent and an always-failing diff
algorithm: the algorithm is demonstrably not invoked. -/
theorem computeDiff_identical_witness :
    ComponentDiff.computeDiff failAlgo
        { FromComponentPath fooCp "staging" with BaseYAML := none, HeadYAML := none } =
      .ok { FromComponentPath fooCp "staging" with BaseYAML := none, HeadYAML := none } ∧
    ({ FromComponentPath fooCp "staging" with
        BaseYAML := none, HeadYAML := none } : ComponentDiff).Diff = "" ∧
    ({ FromComponentPath fooCp "staging" with
        BaseYAML := none, HeadYAML := none } : ComponentDiff).Added = 0 ∧
    ({ FromComponentPath fooCp "staging" with
        BaseYAML := none, HeadYAML := none } : ComponentDiff).Removed = 0 :=
  computeDiff_identical failAlgo none none fooCp "staging" rfl

/-- C4: for every unified-diff text the computed statistics are exactly
the number of non-empty lines starting with the insertion marker that are
not `+++` header lines, and symmetrically for removals; both counts are
non-negative. -/
theorem countStats_line_spec (d : String) :
    countStats d =
      (((splitNl d).filter isAddedLine).length,
       ((splitNl d).filter isRemovedLine).length) ∧
    0 ≤ (countStats d).1 ∧ 0 ≤ (countStats d).2 := by
  refine ⟨?_, Nat.zero_le _, Nat.zero_le _⟩
  unfold countStats
  rw [countStats_fold]
  simp

end RenderDiff

namespace RenderDiff

/-- C5 (amended): a component present on neither snapshot makes `buildPair`
fail with its distinct error, and at run level the job completes as a
logged-and-skipped outcome — recoverable, never fatal — but the component
is omitted from the output (no Error field exists to carry it). -/
theorem neitherRef_recoverable (e : Engine)
    (dalgo : Difflib.UnifiedDiff → Except String String) (j : Job)
    (h1 : e.head.DirExists j.cp.Path = false)
    (h2 : e.base.DirExists j.cp.Path = false) :
    e.buildPair (FromComponentPath j.cp j.env) =
      .error ("component " ++ j.cp.Path ++ " does not exist on either ref") ∧
    processJob e dalgo j =
      .skipped (buildWarn j.cp.Path j.env
        ("component " ++ j.cp.Path ++ " does not exist on either ref")) := by
  have hb : e.buildPair (FromComponentPath j.cp j.env) =
      .error ("component " ++ j.cp.Path ++ " does not exist on either ref") := by
    unfold Engine.buildPair
    simp [FromComponentPath, h1, h2]
  refine ⟨hb, ?_⟩
  unfold processJob
  simp only [hb]

/-- Witness for C5's amended theorem at the concrete both-absent engine. -/
theorem neitherRef_recoverable_witness :
    ghostEngine.buildPair (FromComponentPath fooCp "staging") =
      .error "component components/foo does not exist on either ref" ∧
    processJob ghostEngine Difflib.difflibCall fooJob =
      .skipped (buildWarn "components/foo" "staging"
        "component components/foo does not exist on either ref") :=
  neitherRef_recoverable ghostEngine Difflib.difflibCall fooJob rfl rfl

/-- C5 counterexample: the component absent from both snapshots produces a
successful run whose output holds no trace of it, refuting the claim that
it is never silently omitted from the output. -/
theorem neitherRef_omitted_cex :
    ghostEngine.buildPair (FromComponentPath fooCp "staging") =
      .error "component components/foo does not exist on either ref" ∧
    ghostEngine.Run Difflib.difflibCall fooAffected = .ok ⟨[], 0, 0⟩ :=
  ⟨rfl, rfl⟩

/-- C6: whenever some job's build succeeds but its diff computation fails,
the whole run aborts — `Run` returns no result and the error wraps the
diff-computation error with the component path and environment. -/
theorem run_diffError_fatal (e : Engine)
    (dalgo : Difflib.UnifiedDiff → Except String String)
    (affected : List (Environment × List ComponentPath))
    (h : ∃ j ∈ flattenAffected affected, ∃ cd derr,
        e.buildPair (FromComponentPath j.cp j.env) = .ok cd ∧
        cd.computeDiff dalgo = .error derr) :
    ∃ j ∈ flattenAffected affected, ∃ cd derr,
      e.buildPair (FromComponentPath j.cp j.env) = .ok cd ∧
      cd.computeDiff dalgo = .error derr ∧
      e.Run dalgo affected = .error (diffFatalMsg j.cp.Path j.env derr) := by
  rcases h with ⟨j, hj, cd, derr, h1, h2⟩
  have hfat := processJob_of_diffError e dalgo j cd derr h1 h2
  have hmem : diffFatalMsg j.cp.Path j.env derr ∈
      jobErrors e dalgo (flattenAffected affected) := by
    unfold jobErrors
    exact List.mem_filterMap.mpr ⟨j, hj, by rw [hfat]⟩
  cases herr : jobErrors e dalgo (flattenAffected affected) with
  | nil => rw [herr] at hmem; cases hmem
  | cons err rest =>
    have hrun : e.Run dalgo affected = .error err := by rw [Run_eq, herr]
    rcases run_error_spec e dalgo affected err hrun with ⟨j2, hj2, hfat2⟩
    rcases processJob_fatal_shape e dalgo j2 err hfat2 with ⟨cd2, derr2, hb2, hc2, hm⟩
    exact ⟨j2, hj2, cd2, derr2, hb2, hc2, by rw [hrun, hm]⟩

/-- Witness for C6: a concrete run with an always-failing diff algorithm
aborts with the wrapped error. -/
theorem run_diffError_fatal_witness :
    fooEngine.Run failAlgo fooAffected =
      .error "computing diff for components/foo (staging): diff exploded" := by
  obtain ⟨j, hj, cd, derr, h1, h2, h3⟩ :=
    run_diffError_fatal fooEngine failAlgo fooAffected
      ⟨fooJob, by decide, fooBuiltCd, "diff exploded", rfl, rfl⟩
  have hj2 : j = fooJob := by
    have he : flattenAffected fooAffected = [fooJob] := rfl
    rw [he] at hj
    simpa using hj
  subst hj2
  have hcd : cd = fooBuiltCd := by
    have h0 : fooEngine.buildPair (FromComponentPath fooJob.cp fooJob.env) =
        .ok fooBuiltCd := rfl
    rw [h1] at h0
    exact Except.ok.inj h0
  subst hcd
  have hderr : derr = "diff exploded" := by
    have h0 : ComponentDiff.computeDiff failAlgo fooBuiltCd =
        .error "diff exploded" := rfl
    rw [h2] at h0
    exact Except.error.inj h0
  subst hderr
  exact h3

/-- C7: the progressive run's channel trace consists of exactly one close,
as the last event, on every run — and on a successful run the sent
components are exactly the returned collection, in order. -/
theorem runProgressive_channel_spec (e : Engine)
    (dalgo : Difflib.UnifiedDiff → Except String String)
    (affected : List (Environment × List ComponentPath)) :
    ((e.RunProgressive dalgo affected).2.count ChanEvent.close = 1 ∧
     (e.RunProgressive dalgo affected).2.getLast? = some ChanEvent.close) ∧
    ∀ dr : DiffResult, (e.RunProgressive dalgo affected).1 = .ok dr →
      (e.RunProgressive dalgo affected).2 =
        dr.Diffs.map ChanEvent.send ++ [ChanEvent.close] := by
  rw [RunProgressive_eq]
  dsimp only
  refine ⟨⟨?_, ?_⟩, ?_⟩
  · rw [List.count_append, sends_count_close]
    rfl
  · simp [List.getLast?_concat]
  · intro dr hdr
    cases herr : jobErrors e dalgo (flattenAffected affected) with
    | cons err rest => rw [herr] at hdr; cases hdr
    | nil =>
      rw [herr] at hdr
      cases hdr
      rfl

/-- Witness for C7 at the concrete two-sided scenario. -/
theorem runProgressive_channel_witness :
    (fooEngine.RunProgressive Difflib.difflibCall fooAffected).2.count ChanEvent.close = 1 ∧
    (fooEngine.RunProgressive Difflib.difflibCall fooAffected).2.getLast? =
      some ChanEvent.close ∧
    (fooEngine.RunProgressive Difflib.difflibCall fooAffected).2 =
      fooResult.Diffs.map ChanEvent.send ++ [ChanEvent.close] := by
  have h := runProgressive_channel_spec fooEngine Difflib.difflibCall fooAffected
  exact ⟨h.1.1, h.1.2, h.2 fooResult rfl⟩

end RenderDiff

namespace RenderDiff

theorem poolReachable_running_le (limit : Int) (hpos : 0 < limit)
    (s t : PoolState) (hreach : PoolReachable limit s t)
    (hs : (s.running : Int) ≤ limit) : (t.running : Int) ≤ limit := by
  induction hreach with
  | refl => exact hs
  | step hr hstep ih =>
    cases hstep with
    | start p r d hp hl =>
      have ht : ((r : Nat) : Int) ≤ limit := ih
      show ((r + 1 : Nat) : Int) ≤ limit
      rcases hl with hneg | hlt
      · omega
      · push_cast
        omega
    | finish p r d hr2 =>
      have ht : ((r : Nat) : Int) ≤ limit := ih
      show ((r - 1 : Nat) : Int) ≤ limit
      have hsub : ((r - 1 : Nat) : Int) ≤ ((r : Nat) : Int) := by
        exact_mod_cast Nat.sub_le _ _
      omega

/-- C9: a non-positive concurrency argument to `NewEngine` defaults the cap
to the number of available processing units, and under the worker pool's
step semantics a run never has more builds executing concurrently than the
engine's (positive) cap. -/
theorem concurrency_default_and_cap :
    (∀ (hb bb : RepoBuilder) (c numCPU : Int), c ≤ 0 →
        (NewEngine hb bb c numCPU).concurrency = numCPU) ∧
    (∀ (e : Engine) (n : Nat) (s : PoolState), 0 < e.concurrency →
        PoolReachable e.concurrency ⟨n, 0, 0⟩ s →
        (s.running : Int) ≤ e.concurrency) := by
  constructor
  · intro hb bb c numCPU hc
    unfold NewEngine
    rw [if_pos hc]
  · intro e n s hpos hreach
    exact poolReachable_running_le e.concurrency hpos ⟨n, 0, 0⟩ s hreach
      (by simpa using hpos.le)

/-- Witness for C9: the default kicks in at concurrency 0, and a state
reached by starting one job respects a cap of 3. -/
theorem concurrency_default_and_cap_witness :
    (NewEngine ghostBuilder ghostBuilder 0 8).concurrency = 8 ∧
    (((⟨4, 1, 0⟩ : PoolState).running : Int) ≤
      (NewEngine ghostBuilder ghostBuilder 3 8).concurrency) := by
  have h := concurrency_default_and_cap
  refine ⟨h.1 ghostBuilder ghostBuilder 0 8 (by decide), ?_⟩
  have hreach : PoolReachable (NewEngine ghostBuilder ghostBuilder 3 8).concurrency
      ⟨5, 0, 0⟩ ⟨4, 1, 0⟩ :=
    PoolReachable.step (PoolReachable.refl _)
      (PoolStep.start 5 0 0 (by decide) (Or.inr (by decide)))
  exact h.2 (NewEngine ghostBuilder ghostBuilder 3 8) 5 ⟨4, 1, 0⟩ (by decide) hreach

/-- C10: a component existing on exactly one snapshot whose build output
there is empty bytes is indistinguishable from an absent side — its diff
stays empty, `HasDiff` is false, and it never appears in a successful
run's output. -/
theorem emptyBuild_excluded (e : Engine)
    (dalgo : Difflib.UnifiedDiff → Except String String) (j : Job)
    (h : (e.head.DirExists j.cp.Path = true ∧
          e.head.BuildKustomization j.cp.Path = .ok (some "") ∧
          e.base.DirExists j.cp.Path = false) ∨
         (e.base.DirExists j.cp.Path = true ∧
          e.base.BuildKustomization j.cp.Path = .ok (some "") ∧
          e.head.DirExists j.cp.Path = false)) :
    ∃ cd, e.buildPair (FromComponentPath j.cp j.env) = .ok cd ∧
      byteStr cd.BaseYAML = byteStr cd.HeadYAML ∧
      cd.computeDiff dalgo = .ok cd ∧
      cd.Diff = "" ∧ cd.HasDiff = false ∧
      processJob e dalgo j = .noDiff cd ∧
      ∀ affected dr, e.Run dalgo affected = .ok dr → cd ∉ dr.Diffs := by
  rcases h with ⟨h1, h2, h3⟩ | ⟨h1, h2, h3⟩
  · have hbp : e.buildPair (FromComponentPath j.cp j.env) =
        .ok { FromComponentPath j.cp j.env with HeadYAML := some "" } := by
      unfold Engine.buildPair
      simp [FromComponentPath, h1, h2, h3]
    have hcd : ComponentDiff.computeDiff dalgo
        { FromComponentPath j.cp j.env with HeadYAML := some "" } =
        .ok { FromComponentPath j.cp j.env with HeadYAML := some "" } := by
      unfold ComponentDiff.computeDiff
      simp [FromComponentPath, byteStr]
    have hnd : ({ FromComponentPath j.cp j.env with
        HeadYAML := some "" } : ComponentDiff).HasDiff = false := rfl
    refine ⟨_, hbp, rfl, hcd, rfl, hnd, ?_, ?_⟩
    · unfold processJob
      simp only [hbp, hcd, hnd]
      rfl
    · intro affected dr hrun hmem
      obtain ⟨hdiffs, _, _⟩ := run_ok_spec e dalgo affected dr hrun
      rw [hdiffs] at hmem
      have hhd := mem_jobResults_hasDiff e dalgo _ _ hmem
      rw [hnd] at hhd
      cases hhd
  · have hbp : e.buildPair (FromComponentPath j.cp j.env) =
        .ok { FromComponentPath j.cp j.env with BaseYAML := some "" } := by
      unfold Engine.buildPair
      simp [FromComponentPath, h1, h2, h3]
    have hcd : ComponentDiff.computeDiff dalgo
        { FromComponentPath j.cp j.env with BaseYAML := some "" } =
        .ok { FromComponentPath j.cp j.env with BaseYAML := some "" } := by
      unfold ComponentDiff.computeDiff
      simp [FromComponentPath, byteStr]
    have hnd : ({ FromComponentPath j.cp j.env with
        BaseYAML := some "" } : ComponentDiff).HasDiff = false := rfl
    refine ⟨_, hbp, rfl, hcd, rfl, hnd, ?_, ?_⟩
    · unfold processJob
      simp only [hbp, hcd, hnd]
      rfl
    · intro affected dr hrun hmem
      obtain ⟨hdiffs, _, _⟩ := run_ok_spec e dalgo affected dr hrun
      rw [hdiffs] at hmem
      have hhd := mem_jobResults_hasDiff e dalgo _ _ hmem
      rw [hnd] at hhd
      cases hhd

/-- Witness for C10: the head-only empty-build engine yields the silent
no-diff outcome for its job. -/
theorem emptyBuild_excluded_witness :
    processJob emptyBuildEngine Difflib.difflibCall bazJob = .noDiff bazCd ∧
    bazCd.HasDiff = false := by
  obtain ⟨cd, hbp, _, _, _, _, hpj, _⟩ :=
    emptyBuild_excluded emptyBuildEngine Difflib.difflibCall bazJob
      (Or.inl ⟨rfl, rfl, rfl⟩)
  have hc : cd = bazCd := by
    have h0 : emptyBuildEngine.buildPair (FromComponentPath bazJob.cp bazJob.env) =
        .ok bazCd := rfl
    rw [hbp] at h0
    exact Except.ok.inj h0
  subst hc
  exact ⟨hpj, rfl⟩

end RenderDiff

namespace RenderDiff

theorem splitNlAux_ne_nil : ∀ (cs acc : List Char), splitNlAux cs acc ≠ [] := by
  intro cs
  induction cs with
  | nil => intro acc; simp [splitNlAux]
  | cons c rest ih =>
    intro acc
    rw [splitNlAux]
    by_cases hc : (c == '\n') = true
    · simp [hc]
    · simp only [hc, if_false, Bool.false_eq_true]
      exact ih (c :: acc)

theorem splitNl_ne_nil (s : String) : splitNl s ≠ [] :=
  splitNlAux_ne_nil s.data []

theorem appendExceptLast_cons_ne_nil (suf : String) (x : String) (l : List String) :
    appendExceptLast suf (x :: l) ≠ [] := by
  cases l <;> simp [appendExceptLast]

theorem appendToLast_appendExceptLast (suf : String) :
    ∀ l : List String, appendToLast suf (appendExceptLast suf l) = l.map (· ++ suf) := by
  intro l
  induction l with
  | nil => rfl
  | cons x l ih =>
    cases l with
    | nil => rfl
    | cons y r =>
      have hne := appendExceptLast_cons_ne_nil suf y r
      rw [show appendExceptLast suf (x :: y :: r) =
        (x ++ suf) :: appendExceptLast suf (y :: r) from rfl]
      cases hl : appendExceptLast suf (y :: r) with
      | nil => exact absurd hl hne
      | cons z zs =>
        rw [show appendToLast suf ((x ++ suf) :: z :: zs) =
          (x ++ suf) :: appendToLast suf (z :: zs) from rfl]
        rw [← hl, ih]
        simp

theorem splitLines_eq_map (s : String) :
    Difflib.splitLines s = (splitNl s).map (· ++ "\n") := by
  unfold Difflib.splitLines splitAfterNl
  exact appendToLast_appendExceptLast "\n" (splitNl s)

theorem splitLines_ne_nil (s : String) : Difflib.splitLines s ≠ [] := by
  rw [splitLines_eq_map]
  simp [splitNl_ne_nil s]

theorem splitNlAux_eq_empty_singleton :
    ∀ (cs acc : List Char), splitNlAux cs acc = [""] → cs = [] ∧ acc = [] := by
  intro cs
  induction cs with
  | nil =>
    intro acc h
    rw [splitNlAux] at h
    have h2 : String.mk acc.reverse = "" := by
      injection h
    have h3 : acc.reverse = [] := by
      have := congrArg String.data h2
      simpa using this
    exact ⟨rfl, by simpa using h3⟩
  | cons c rest ih =>
    intro acc h
    rw [splitNlAux] at h
    by_cases hc : (c == '\n') = true
    · rw [if_pos hc] at h
      have h2 : splitNlAux rest [] = [] := by
        injection h
      exact absurd h2 (splitNlAux_ne_nil rest [])
    · rw [if_neg hc] at h
      rcases ih (c :: acc) h with ⟨_, h3⟩
      cases h3

theorem splitNl_eq_empty_singleton (s : String) (h : splitNl s = [""]) : s = "" := by
  have := (splitNlAux_eq_empty_singleton s.data [] h).1
  cases s with
  | mk data => cases this; rfl

theorem splitLines_empty : Difflib.splitLines "" = ["\n"] := rfl

theorem splitLines_eq_nl (s : String) (h : Difflib.splitLines s = ["\n"]) : s = "" := by
  rw [splitLines_eq_map] at h
  have hlen : (splitNl s).length = 1 := by
    have := congrArg List.length h
    simpa using this
  rcases List.length_eq_one.mp hlen with ⟨p, hp⟩
  rw [hp] at h
  simp only [List.map_cons, List.map_nil] at h
  have hpn : p ++ "\n" = "\n" := by injection h
  have hdata : p.data ++ ['\n'] = ['\n'] := by
    have := congrArg String.data hpn
    simpa [String.data_append] using this
  have hpd : p.data = [] := by
    have h0 : p.data ++ ['\n'] = ([] : List Char) ++ ['\n'] := by simpa using hdata
    exact List.append_cancel_right h0
  have hpe : p = "" := by
    cases p with
    | mk d => cases hpd; rfl
  rw [hpe] at hp
  exact splitNl_eq_empty_singleton s hp

end RenderDiff

namespace Difflib

open RenderDiff

theorem mem_enumFrom_filterMap (s : String) :
    ∀ (b : List String) (n y : Nat),
      y ∈ (List.enumFrom n b).filterMap
        (fun p => if p.2 == s then some p.1 else none) →
      n ≤ y ∧ y - n < b.length ∧ b.getD (y - n) "" = s := by
  intro b
  induction b with
  | nil => intro n y h; simp at h
  | cons x xs ih =>
    intro n y h
    rw [show List.enumFrom n (x :: xs) = (n, x) :: List.enumFrom (n + 1) xs from rfl,
      List.filterMap_cons] at h
    by_cases hx : (x == s) = true
    · rw [if_pos hx] at h
      rcases List.mem_cons.mp h with h1 | h1
      · subst h1
        refine ⟨le_refl _, by simp, ?_⟩
        simpa [List.getD] using (beq_iff_eq.mp hx)
      · rcases ih (n + 1) y h1 with ⟨ha, hb, hc⟩
        refine ⟨by omega, by simp; omega, ?_⟩
        have hyn : y - n = (y - (n + 1)) + 1 := by omega
        rw [hyn]
        simpa [List.getD] using hc
    · rw [if_neg hx] at h
      rcases ih (n + 1) y h with ⟨ha, hb, hc⟩
      refine ⟨by omega, by simp; omega, ?_⟩
      have hyn : y - n = (y - (n + 1)) + 1 := by omega
      rw [hyn]
      simpa [List.getD] using hc

theorem mem_indicesOf (b : List String) (s : String) :
    ∀ y ∈ indicesOf b s, y < b.length ∧ b.getD y "" = s := by
  intro y hy
  unfold indicesOf at hy
  have h := mem_enumFrom_filterMap s b 0 y hy
  simpa using h

theorem mem_b2jOf (b : List String) (s : String) :
    ∀ y ∈ b2jOf b s, y < b.length ∧ b.getD y "" = s := by
  intro y hy
  unfold b2jOf at hy
  by_cases hc : (200 ≤ b.length && b.length / 100 + 1 < (indicesOf b s).length) = true
  · rw [if_pos hc] at hy
    simp at hy
  · rw [if_neg hc] at hy
    exact mem_indicesOf b s y hy

theorem lookupD_le (l : List (Nat × Nat)) (k t : Nat) (h : ∀ p ∈ l, p.2 ≤ t) :
    lookupD l k ≤ t := by
  unfold lookupD
  cases hf : l.find? (fun p => p.1 == k) with
  | none => exact Nat.zero_le _
  | some p => exact h p (List.mem_of_find?_eq_some hf)

theorem lookupD_perkey (l : List (Nat × Nat)) (k : Nat)
    (h : ∀ p ∈ l, p.2 ≤ p.1 + 1) : lookupD l k ≤ k + 1 := by
  unfold lookupD
  cases hf : l.find? (fun p => p.1 == k) with
  | none => exact Nat.zero_le _
  | some p =>
    have h1 := h p (List.mem_of_find?_eq_some hf)
    have h2 : p.1 = k := by simpa using List.find?_some hf
    rw [h2] at h1
    exact h1

theorem whileLoop_inv {σ : Type} (cond : σ → Bool) (step : σ → σ)
    (P : σ → Prop) (hstep : ∀ s, cond s = true → P s → P (step s)) :
    ∀ (fuel : Nat) (s : σ), P s → P (whileLoop cond step fuel s) := by
  intro fuel
  induction fuel with
  | zero => intro s h; simpa [whileLoop] using h
  | succ n ih =>
    intro s h
    rw [whileLoop]
    by_cases hc : cond s = true
    · rw [if_pos hc]
      exact ih _ (hstep s hc h)
    · rw [if_neg (by simpa using hc)]
      exact h

theorem flmInv_left (a b : List String) (alo ahi blo bhi : Nat) (s : BestMatch)
    (h1 : alo < s.besti) (h2 : blo < s.bestj)
    (hP : FlmInv a b alo ahi blo bhi s) :
    FlmInv a b alo ahi blo bhi ⟨s.besti - 1, s.bestj - 1, s.bestsize + 1⟩ := by
  rcases hP with h0 | ⟨hp, ha, hb, hsh⟩
  · rw [h0] at h1
    simp at h1
  · right
    refine ⟨Nat.succ_pos _, ?_, ?_, hsh⟩
    · show s.besti - 1 + (s.bestsize + 1) ≤ ahi
      omega
    · show s.bestj - 1 + (s.bestsize + 1) ≤ bhi
      omega

theorem flmInv_right (a b : List String) (alo ahi blo bhi : Nat)
    (hahi : ahi ≤ a.length) (hbhi : bhi ≤ b.length) (s : BestMatch)
    (h1 : s.besti + s.bestsize < ahi) (h2 : s.bestj + s.bestsize < bhi)
    (heq : a.getD (s.besti + s.bestsize) "" = b.getD (s.bestj + s.bestsize) "")
    (hP : FlmInv a b alo ahi blo bhi s) :
    FlmInv a b alo ahi blo bhi ⟨s.besti, s.bestj, s.bestsize + 1⟩ := by
  right
  refine ⟨Nat.succ_pos _, ?_, ?_, ?_⟩
  · show s.besti + (s.bestsize + 1) ≤ ahi
    omega
  · show s.bestj + (s.bestsize + 1) ≤ bhi
    omega
  · rcases hP with h0 | ⟨_, _, _, hsh⟩
    · exact ⟨s.besti + s.bestsize, s.bestj + s.bestsize, by omega, by omega, heq⟩
    · exact hsh

end Difflib

namespace Difflib

open RenderDiff

theorem whileLoop_left_inv (a b : List String) (alo ahi blo bhi : Nat)
    (cond : BestMatch → Bool)
    (hcond : ∀ s, cond s = true → alo < s.besti ∧ blo < s.bestj)
    (fuel : Nat) (s : BestMatch) (h : FlmInv a b alo ahi blo bhi s) :
    FlmInv a b alo ahi blo bhi
      (whileLoop cond (fun s => ⟨s.besti - 1, s.bestj - 1, s.bestsize + 1⟩) fuel s) :=
  whileLoop_inv cond _ _
    (fun s hc hP => flmInv_left a b alo ahi blo bhi s (hcond s hc).1 (hcond s hc).2 hP)
    fuel s h

theorem whileLoop_right_inv (a b : List String) (alo ahi blo bhi : Nat)
    (hahi : ahi ≤ a.length) (hbhi : bhi ≤ b.length)
    (cond : BestMatch → Bool)
    (hcond : ∀ s, cond s = true → s.besti + s.bestsize < ahi ∧
      s.bestj + s.bestsize < bhi ∧
      a.getD (s.besti + s.bestsize) "" = b.getD (s.bestj + s.bestsize) "")
    (fuel : Nat) (s : BestMatch) (h : FlmInv a b alo ahi blo bhi s) :
    FlmInv a b alo ahi blo bhi
      (whileLoop cond (fun s => ⟨s.besti, s.bestj, s.bestsize + 1⟩) fuel s) :=
  whileLoop_inv cond _ _
    (fun s hc hP => flmInv_right a b alo ahi blo bhi hahi hbhi s
      (hcond s hc).1 (hcond s hc).2.1 (hcond s hc).2.2 hP)
    fuel s h

theorem flmScan_inv (a b : List String) (alo ahi blo bhi : Nat)
    (hahi : ahi ≤ a.length) (i : Nat) (hi : i < ahi) (c : Nat) (hc : c ≤ i)
    (j2len : List (Nat × Nat))
    (hcount : ∀ p ∈ j2len, p.2 ≤ c)
    (hkey : ∀ p ∈ j2len, p.2 ≤ p.1 + 1) :
    ∀ (js : List Nat) (row : List (Nat × Nat)) (best : BestMatch),
      (∀ j ∈ js, j < b.length ∧ b.getD j "" = a.getD i "") →
      (∀ p ∈ row, p.2 ≤ c + 1) → (∀ p ∈ row, p.2 ≤ p.1 + 1) →
      FlmInv a b alo ahi blo bhi best →
      (∀ p ∈ (flmScan blo bhi i j2len js row best).1, p.2 ≤ c + 1) ∧
      (∀ p ∈ (flmScan blo bhi i j2len js row best).1, p.2 ≤ p.1 + 1) ∧
      FlmInv a b alo ahi blo bhi (flmScan blo bhi i j2len js row best).2 := by
  intro js
  induction js with
  | nil =>
    intro row best hjs hrow1 hrow2 hbest
    simp only [flmScan]
    exact ⟨hrow1, hrow2, hbest⟩
  | cons j js ih =>
    intro row best hjs hrow1 hrow2 hbest
    simp only [flmScan]
    by_cases h1 : j < blo
    · simp only [if_pos h1]
      exact ih row best (fun x hx => hjs x (List.mem_cons_of_mem _ hx)) hrow1 hrow2 hbest
    · simp only [if_neg h1]
      by_cases h2 : bhi ≤ j
      · simp only [if_pos h2]
        exact ⟨hrow1, hrow2, hbest⟩
      · simp only [if_neg h2]
        have hkc : (if (j == 0) = true then 0 else lookupD j2len (j - 1)) + 1 ≤ c + 1 := by
          by_cases hj0 : (j == 0) = true
          · simp [hj0]
          · have := lookupD_le j2len (j - 1) c hcount
            simp only [hj0, if_false, Bool.false_eq_true]
            omega
        have hkj : (if (j == 0) = true then 0 else lookupD j2len (j - 1)) + 1 ≤ j + 1 := by
          by_cases hj0 : (j == 0) = true
          · have hj : j = 0 := by simpa using hj0
            simp [hj0, hj]
          · have hj : j ≠ 0 := by simpa using hj0
            have := lookupD_perkey j2len (j - 1) hkey
            simp only [hj0, if_false, Bool.false_eq_true]
            omega
        refine ih _ _ (fun x hx => hjs x (List.mem_cons_of_mem _ hx)) ?_ ?_ ?_
        · intro p hp
          rcases List.mem_cons.mp hp with h | h
          · rw [h]
            exact hkc
          · exact hrow1 p h
        · intro p hp
          rcases List.mem_cons.mp hp with h | h
          · rw [h]
            exact hkj
          · exact hrow2 p h
        · by_cases hup : best.bestsize <
            (if (j == 0) = true then 0 else lookupD j2len (j - 1)) + 1
          · rw [if_pos hup]
            right
            refine ⟨Nat.succ_pos _, ?_, ?_, ?_⟩
            · show i + 1 - ((if (j == 0) = true then 0 else lookupD j2len (j - 1)) + 1) +
                ((if (j == 0) = true then 0 else lookupD j2len (j - 1)) + 1) ≤ ahi
              omega
            · show j + 1 - ((if (j == 0) = true then 0 else lookupD j2len (j - 1)) + 1) +
                ((if (j == 0) = true then 0 else lookupD j2len (j - 1)) + 1) ≤ bhi
              omega
            · exact ⟨i, j, by omega, (hjs j (List.mem_cons_self _ _)).1,
                ((hjs j (List.mem_cons_self _ _)).2).symm⟩
          · rw [if_neg hup]
            exact hbest

theorem flmRows_inv (a b : List String) (alo ahi blo bhi : Nat)
    (hahi : ahi ≤ a.length) (b2j : String → List Nat)
    (hb2j : ∀ s j, j ∈ b2j s → j < b.length ∧ b.getD j "" = s) :
    ∀ (n i0 : Nat), (∀ i ∈ List.range' i0 n, i < ahi) →
      ∀ (j2len : List (Nat × Nat)) (best : BestMatch),
        (∀ p ∈ j2len, p.2 ≤ i0) → (∀ p ∈ j2len, p.2 ≤ p.1 + 1) →
        FlmInv a b alo ahi blo bhi best →
        FlmInv a b alo ahi blo bhi
          (flmRows a b2j blo bhi (List.range' i0 n) j2len best) := by
  intro n
  induction n with
  | zero =>
    intro i0 _ j2len best _ _ hbest
    simpa [flmRows] using hbest
  | succ n ih =>
    intro i0 hlt j2len best hcount hkey hbest
    have hi0 : i0 < ahi :=
      hlt i0 (List.mem_range'_1.mpr ⟨le_refl _, by omega⟩)
    have hs := flmScan_inv a b alo ahi blo bhi hahi i0 hi0 i0 (le_refl i0) j2len hcount hkey
      (b2j (a.getD i0 "")) [] best (fun j hj => hb2j _ j hj)
      (by intro p hp; simp at hp) (by intro p hp; simp at hp) hbest
    rw [List.range'_succ i0 n 1]
    simp only [flmRows]
    cases hsc : flmScan blo bhi i0 j2len (b2j (a.getD i0 "")) [] best with
    | mk r bst =>
      rw [hsc] at hs
      obtain ⟨hr1, hr2, hbst⟩ := hs
      exact ih (i0 + 1)
        (fun i hi => by
          have h1 := List.mem_range'_1.mp hi
          exact hlt i (List.mem_range'_1.mpr ⟨by omega, by omega⟩))
        r bst hr1 hr2 hbst

theorem findLongestMatch_inv (a b : List String) (isJk : String → Bool)
    (b2j : String → List Nat)
    (hb2j : ∀ s j, j ∈ b2j s → j < b.length ∧ b.getD j "" = s)
    (alo ahi blo bhi : Nat) (hahi : ahi ≤ a.length) (hbhi : bhi ≤ b.length) :
    (findLongestMatch a b isJk b2j alo ahi blo bhi).Size = 0 ∨
      (0 < (findLongestMatch a b isJk b2j alo ahi blo bhi).Size ∧
       (findLongestMatch a b isJk b2j alo ahi blo bhi).A +
         (findLongestMatch a b isJk b2j alo ahi blo bhi).Size ≤ ahi ∧
       (findLongestMatch a b isJk b2j alo ahi blo bhi).B +
         (findLongestMatch a b isJk b2j alo ahi blo bhi).Size ≤ bhi ∧
       SharedLine a b) := by
  have h1 := flmRows_inv a b alo ahi blo bhi hahi b2j hb2j (ahi - alo) alo
    (fun i hi => by
      have := List.mem_range'_1.mp hi
      omega)
    [] ⟨alo, blo, 0⟩ (by intro p hp; simp at hp) (by intro p hp; simp at hp)
    (Or.inl rfl)
  have h2 := whileLoop_left_inv a b alo ahi blo bhi
    (fun s : BestMatch => decide (alo < s.besti) && decide (blo < s.bestj) &&
      !isJk (b.getD (s.bestj - 1) "") &&
      (a.getD (s.besti - 1) "" == b.getD (s.bestj - 1) ""))
    (fun s hc => by
      simp only [Bool.and_eq_true, decide_eq_true_eq] at hc
      exact ⟨hc.1.1.1, hc.1.1.2⟩)
    (ahi + bhi + 1) _ h1
  have h3 := whileLoop_right_inv a b alo ahi blo bhi hahi hbhi
    (fun s : BestMatch => decide (s.besti + s.bestsize < ahi) &&
      decide (s.bestj + s.bestsize < bhi) &&
      !isJk (b.getD (s.bestj + s.bestsize) "") &&
      (a.getD (s.besti + s.bestsize) "" == b.getD (s.bestj + s.bestsize) ""))
    (fun s hc => by
      simp only [Bool.and_eq_true, decide_eq_true_eq, beq_iff_eq] at hc
      exact ⟨hc.1.1.1, hc.1.1.2, hc.2⟩)
    (ahi + bhi + 1) _ h2
  have h4 := whileLoop_left_inv a b alo ahi blo bhi
    (fun s : BestMatch => decide (alo < s.besti) && decide (blo < s.bestj) &&
      isJk (b.getD (s.bestj - 1) "") &&
      (a.getD (s.besti - 1) "" == b.getD (s.bestj - 1) ""))
    (fun s hc => by
      simp only [Bool.and_eq_true, decide_eq_true_eq] at hc
      exact ⟨hc.1.1.1, hc.1.1.2⟩)
    (ahi + bhi + 1) _ h3
  have h5 := whileLoop_right_inv a b alo ahi blo bhi hahi hbhi
    (fun s : BestMatch => decide (s.besti + s.bestsize < ahi) &&
      decide (s.bestj + s.bestsize < bhi) &&
      isJk (b.getD (s.bestj + s.bestsize) "") &&
      (a.getD (s.besti + s.bestsize) "" == b.getD (s.bestj + s.bestsize) ""))
    (fun s hc => by
      simp only [Bool.and_eq_true, decide_eq_true_eq, beq_iff_eq] at hc
      exact ⟨hc.1.1.1, hc.1.1.2, hc.2⟩)
    (ahi + bhi + 1) _ h4
  rcases h5 with h6 | ⟨hp, ha2, hb2, hsh⟩
  · exact Or.inl (congrArg BestMatch.bestsize h6)
  · exact Or.inr ⟨hp, ha2, hb2, hsh⟩

end Difflib

namespace Difflib

open RenderDiff

theorem matchBlocks_inv (a b : List String) (isJk : String → Bool)
    (b2j : String → List Nat)
    (hb2j : ∀ s j, j ∈ b2j s → j < b.length ∧ b.getD j "" = s) :
    ∀ (fuel alo ahi blo bhi : Nat), ahi ≤ a.length → bhi ≤ b.length →
      ∀ (matched : List Match), (∀ m ∈ matched, GoodBlock a b m) →
      ∀ m ∈ matchBlocks a b isJk b2j fuel alo ahi blo bhi matched, GoodBlock a b m := by
  intro fuel
  induction fuel with
  | zero =>
    intro alo ahi blo bhi _ _ matched hmatched m hm
    simp only [matchBlocks] at hm
    exact hmatched m hm
  | succ fuel ih =>
    intro alo ahi blo bhi hA hB matched hmatched m hm
    simp only [matchBlocks] at hm
    have hinv := findLongestMatch_inv a b isJk b2j hb2j alo ahi blo bhi hA hB
    rcases hinv with h0 | ⟨hp, hsa, hsb, hsh⟩
    · rw [if_neg (by omega)] at hm
      exact hmatched m hm
    · rw [if_pos hp] at hm
      have hgood : GoodBlock a b (findLongestMatch a b isJk b2j alo ahi blo bhi) :=
        ⟨hp, by omega, by omega, hsh⟩
      have hmid : ∀ x ∈ (if (decide (alo < (findLongestMatch a b isJk b2j alo ahi blo bhi).A) &&
          decide (blo < (findLongestMatch a b isJk b2j alo ahi blo bhi).B)) = true then
            matchBlocks a b isJk b2j fuel alo (findLongestMatch a b isJk b2j alo ahi blo bhi).A
              blo (findLongestMatch a b isJk b2j alo ahi blo bhi).B matched
          else matched) ++ [findLongestMatch a b isJk b2j alo ahi blo bhi],
          GoodBlock a b x := by
        intro x hx
        rcases List.mem_append.mp hx with hx1 | hx1
        · by_cases hc1 : (decide (alo < (findLongestMatch a b isJk b2j alo ahi blo bhi).A) &&
              decide (blo < (findLongestMatch a b isJk b2j alo ahi blo bhi).B)) = true
          · rw [if_pos hc1] at hx1
            exact ih alo (findLongestMatch a b isJk b2j alo ahi blo bhi).A blo
              (findLongestMatch a b isJk b2j alo ahi blo bhi).B
              (by omega) (by omega) matched hmatched x hx1
          · rw [if_neg hc1] at hx1
            exact hmatched x hx1
        · have hx2 : x = findLongestMatch a b isJk b2j alo ahi blo bhi := by
            simpa using hx1
          rw [hx2]
          exact hgood
      by_cases hc2 : (decide ((findLongestMatch a b isJk b2j alo ahi blo bhi).A +
          (findLongestMatch a b isJk b2j alo ahi blo bhi).Size < ahi) &&
          decide ((findLongestMatch a b isJk b2j alo ahi blo bhi).B +
          (findLongestMatch a b isJk b2j alo ahi blo bhi).Size < bhi)) = true
      · rw [if_pos hc2] at hm
        exact ih ((findLongestMatch a b isJk b2j alo ahi blo bhi).A +
            (findLongestMatch a b isJk b2j alo ahi blo bhi).Size) ahi
          ((findLongestMatch a b isJk b2j alo ahi blo bhi).B +
            (findLongestMatch a b isJk b2j alo ahi blo bhi).Size) bhi
          hA hB _ hmid m hm
      · rw [if_neg hc2] at hm
        exact hmid m hm

theorem mergeAdjacent_mem (a b : List String) :
    ∀ (blocks : List Match), (∀ m ∈ blocks, GoodBlock a b m) →
      ∀ (i1 j1 k1 : Nat),
        (0 < k1 → i1 + k1 ≤ a.length ∧ j1 + k1 ≤ b.length) →
        ∀ x ∈ mergeAdjacent blocks (i1, j1, k1),
          0 < x.Size ∧ x.A + x.Size ≤ a.length ∧ x.B + x.Size ≤ b.length := by
  intro blocks
  induction blocks with
  | nil =>
    intro _ i1 j1 k1 hacc x hx
    simp only [mergeAdjacent] at hx
    by_cases hk : 0 < k1
    · rw [if_pos hk] at hx
      have hx2 : x = ⟨i1, j1, k1⟩ := by simpa using hx
      rw [hx2]
      exact ⟨hk, (hacc hk).1, (hacc hk).2⟩
    · rw [if_neg hk] at hx
      simp at hx
  | cons m ms ih =>
    intro hg i1 j1 k1 hacc x hx
    simp only [mergeAdjacent] at hx
    have hgm := hg m (List.mem_cons_self _ _)
    by_cases hadj : (i1 + k1 == m.A && j1 + k1 == m.B) = true
    · rw [if_pos hadj] at hx
      have hadj2 : i1 + k1 = m.A ∧ j1 + k1 = m.B := by
        simpa [Bool.and_eq_true] using hadj
      refine ih (fun y hy => hg y (List.mem_cons_of_mem _ hy)) i1 j1 (k1 + m.Size) ?_ x hx
      intro _
      have hma := hgm.2.1
      have hmb := hgm.2.2.1
      omega
    · rw [if_neg hadj] at hx
      rcases List.mem_append.mp hx with h | h
      · by_cases hk : 0 < k1
        · rw [if_pos hk] at h
          have hx2 : x = ⟨i1, j1, k1⟩ := by simpa using h
          rw [hx2]
          exact ⟨hk, (hacc hk).1, (hacc hk).2⟩
        · rw [if_neg hk] at h
          simp at h
      · refine ih (fun y hy => hg y (List.mem_cons_of_mem _ hy)) m.A m.B m.Size ?_ x h
        intro _
        exact ⟨hgm.2.1, hgm.2.2.1⟩

theorem mergeAdjacent_ne_nil :
    ∀ (blocks : List Match) (i1 j1 k1 : Nat), 0 < k1 →
      mergeAdjacent blocks (i1, j1, k1) ≠ [] := by
  intro blocks
  induction blocks with
  | nil =>
    intro i1 j1 k1 hk
    simp [mergeAdjacent, hk]
  | cons m ms ih =>
    intro i1 j1 k1 hk
    simp only [mergeAdjacent]
    by_cases hadj : (i1 + k1 == m.A && j1 + k1 == m.B) = true
    · rw [if_pos hadj]
      exact ih i1 j1 (k1 + m.Size) (by omega)
    · rw [if_neg hadj, if_pos hk]
      simp

theorem mergeAdjacent_cons_ne_nil (m : Match) (ms : List Match) (hm : 0 < m.Size) :
    mergeAdjacent (m :: ms) (0, 0, 0) ≠ [] := by
  simp only [mergeAdjacent]
  by_cases hadj : (0 + 0 == m.A && 0 + 0 == m.B) = true
  · rw [if_pos hadj]
    exact mergeAdjacent_ne_nil ms 0 0 (0 + m.Size) (by omega)
  · rw [if_neg hadj, if_neg (lt_irrefl 0), List.nil_append]
    exact mergeAdjacent_ne_nil ms m.A m.B m.Size hm

theorem opCodesFrom_length (blocks : List Match) :
    ∀ i j, blocks.countP (fun m => decide (0 < m.Size)) ≤
      (opCodesFrom blocks i j).length := by
  induction blocks with
  | nil => intro i j; simp [opCodesFrom]
  | cons m ms ih =>
    intro i j
    simp only [opCodesFrom, List.countP_cons, List.length_append]
    have hr := ih (m.A + m.Size) (m.B + m.Size)
    by_cases hs : 0 < m.Size
    · simp [hs]
      omega
    · simp [hs]
      omega

end Difflib

namespace Difflib

theorem opCodesFrom_tail_mem (ms : List Match) (m : Match) (i j : Nat) (x : OpCode)
    (hx : x ∈ opCodesFrom ms (m.A + m.Size) (m.B + m.Size)) :
    x ∈ opCodesFrom (m :: ms) i j := by
  simp only [opCodesFrom, List.mem_append]
  tauto

theorem opCodesFrom_front_mem (ms : List Match) (m : Match) (i j : Nat) (t : Char)
    (ht : (if (decide (i < m.A) && decide (j < m.B)) = true then 'r'
      else if i < m.A then 'd' else if j < m.B then 'i' else ' ') = t)
    (htne : (t != ' ') = true) :
    (⟨t, i, m.A, j, m.B⟩ : OpCode) ∈ opCodesFrom (m :: ms) i j := by
  simp only [opCodesFrom]
  rw [ht, htne]
  simp

theorem getOpCodes_nontrivial (a b : List String) (ha : a ≠ []) (hb : b ≠ [])
    (hone : a.length = 1 ∨ b.length = 1) (hne : a ≠ b) :
    (∃ c ∈ getOpCodes a b, c.Tag ≠ 'e') ∨ 2 ≤ (getOpCodes a b).length := by
  have hb2j : ∀ s j, j ∈ b2jOf b s → j < b.length ∧ b.getD j "" = s :=
    fun s j hj => mem_b2jOf b s j hj
  have hlena : 0 < a.length := List.length_pos.mpr ha
  have hlenb : 0 < b.length := List.length_pos.mpr hb
  have hcodes : getOpCodes a b =
      opCodesFrom (mergeAdjacent (matchBlocks a b (fun _ => false) (b2jOf b)
        (a.length + b.length + 1) 0 a.length 0 b.length []) (0, 0, 0) ++
        [⟨a.length, b.length, 0⟩]) 0 0 := rfl
  have hmatched : ∀ m ∈ matchBlocks a b (fun _ => false) (b2jOf b)
      (a.length + b.length + 1) 0 a.length 0 b.length [], GoodBlock a b m :=
    matchBlocks_inv a b (fun _ => false) (b2jOf b) hb2j
      (a.length + b.length + 1) 0 a.length 0 b.length (le_refl _) (le_refl _)
      [] (fun m hm => absurd hm (List.not_mem_nil m))
  cases hmc : matchBlocks a b (fun _ => false) (b2jOf b)
      (a.length + b.length + 1) 0 a.length 0 b.length [] with
  | nil =>
    left
    have hmg : mergeAdjacent ([] : List Match) (0, 0, 0) = [] := by
      simp [mergeAdjacent]
    rw [hcodes, hmc, hmg, List.nil_append]
    refine ⟨⟨'r', 0, a.length, 0, b.length⟩, ?_, by show ('r' : Char) ≠ 'e'; decide⟩
    exact opCodesFrom_front_mem [] ⟨a.length, b.length, 0⟩ 0 0 'r'
      (by simp [hlena, hlenb]) rfl
  | cons mfst mrest =>
    rw [hmc] at hmatched
    have hGf := hmatched mfst (List.mem_cons_self _ _)
    have hsh : SharedLine a b := hGf.2.2.2
    have hmm := mergeAdjacent_mem a b (mfst :: mrest) hmatched 0 0 0
      (fun h0 => absurd h0 (lt_irrefl 0))
    have hmne := mergeAdjacent_cons_ne_nil mfst mrest hGf.1
    cases hmg : mergeAdjacent (mfst :: mrest) (0, 0, 0) with
    | nil => exact absurd hmg hmne
    | cons blk rest2 =>
      rw [hmg] at hmm
      cases rest2 with
      | cons blk2 rest3 =>
        right
        rw [hcodes, hmc, hmg]
        have hb1 : 0 < blk.Size := (hmm blk (List.mem_cons_self _ _)).1
        have hb2 : 0 < blk2.Size :=
          (hmm blk2 (List.mem_cons_of_mem _ (List.mem_cons_self _ _))).1
        have hcnt : 2 ≤ ((blk :: blk2 :: rest3) ++
            [(⟨a.length, b.length, 0⟩ : Match)]).countP
              (fun m => decide (0 < m.Size)) := by
          simp [List.countP_cons, hb1, hb2]
        have hlen := opCodesFrom_length ((blk :: blk2 :: rest3) ++
          [(⟨a.length, b.length, 0⟩ : Match)]) 0 0
        omega
      | nil =>
        have hblk := hmm blk (List.mem_cons_self _ _)
        rw [hcodes, hmc, hmg]
        by_cases hA1 : 0 < blk.A
        · by_cases hB1 : 0 < blk.B
          · left
            refine ⟨⟨'r', 0, blk.A, 0, blk.B⟩, ?_, by show ('r' : Char) ≠ 'e'; decide⟩
            exact opCodesFrom_front_mem _ blk 0 0 'r' (by simp [hA1, hB1]) rfl
          · left
            refine ⟨⟨'d', 0, blk.A, 0, blk.B⟩, ?_, by show ('d' : Char) ≠ 'e'; decide⟩
            exact opCodesFrom_front_mem _ blk 0 0 'd' (by simp [hA1, hB1]) rfl
        · by_cases hB1 : 0 < blk.B
          · left
            refine ⟨⟨'i', 0, blk.A, 0, blk.B⟩, ?_, by show ('i' : Char) ≠ 'e'; decide⟩
            exact opCodesFrom_front_mem _ blk 0 0 'i' (by simp [hA1, hB1]) rfl
          · by_cases hia : blk.A + blk.Size < a.length
            · by_cases hib : blk.B + blk.Size < b.length
              · left
                refine ⟨⟨'r', blk.A + blk.Size, a.length, blk.B + blk.Size,
                  b.length⟩, ?_, by show ('r' : Char) ≠ 'e'; decide⟩
                refine opCodesFrom_tail_mem _ blk 0 0 _ ?_
                exact opCodesFrom_front_mem [] ⟨a.length, b.length, 0⟩
                  (blk.A + blk.Size) (blk.B + blk.Size) 'r' (by simp [hia, hib]) rfl
              · left
                refine ⟨⟨'d', blk.A + blk.Size, a.length, blk.B + blk.Size,
                  b.length⟩, ?_, by show ('d' : Char) ≠ 'e'; decide⟩
                refine opCodesFrom_tail_mem _ blk 0 0 _ ?_
                exact opCodesFrom_front_mem [] ⟨a.length, b.length, 0⟩
                  (blk.A + blk.Size) (blk.B + blk.Size) 'd' (by simp [hia, hib]) rfl
            · by_cases hib : blk.B + blk.Size < b.length
              · left
                refine ⟨⟨'i', blk.A + blk.Size, a.length, blk.B + blk.Size,
                  b.length⟩, ?_, by show ('i' : Char) ≠ 'e'; decide⟩
                refine opCodesFrom_tail_mem _ blk 0 0 _ ?_
                exact opCodesFrom_front_mem [] ⟨a.length, b.length, 0⟩
                  (blk.A + blk.Size) (blk.B + blk.Size) 'i' (by simp [hia, hib]) rfl
              · exfalso
                have h1 : blk.A + blk.Size ≤ a.length := hblk.2.1
                have h2 : blk.B + blk.Size ≤ b.length := hblk.2.2
                have hab : a.length = b.length := by omega
                have hlen1 : a.length = 1 ∧ b.length = 1 := by
                  rcases hone with h | h <;> omega
                obtain ⟨x, y, hx, hy, hxy⟩ := hsh
                obtain ⟨a0, rfl⟩ := List.length_eq_one.mp hlen1.1
                obtain ⟨b0, rfl⟩ := List.length_eq_one.mp hlen1.2
                simp at hx hy
                subst hx
                subst hy
                apply hne
                have hab0 : a0 = b0 := by simpa using hxy
                rw [hab0]

theorem groupLoop_ne_nil (n nn : Nat) :
    ∀ (codes : List OpCode) (groups : List (List OpCode)) (group : List OpCode),
      (groups ≠ [] ∨ (∃ c ∈ group ++ codes, c.Tag ≠ 'e') ∨
        2 ≤ (group ++ codes).length) →
      groupLoop n nn codes groups group ≠ [] := by
  intro codes
  induction codes with
  | nil =>
    intro groups group h
    simp only [groupLoop]
    rcases h with h | h | h
    · split
      · simp
      · exact h
    · obtain ⟨c, hc, hct⟩ := h
      rw [List.append_nil] at hc
      rcases group with _ | ⟨g, gs⟩
      · simp at hc
      · rcases gs with _ | ⟨g2, gs2⟩
        · have hcg : c = g := by simpa using hc
          rw [if_pos]
          · simp
          · have hgt : (g.Tag == 'e') = false := beq_eq_false_iff_ne.mpr (hcg ▸ hct)
            simp [hgt]
        · rw [if_pos]
          · simp
          · simp
    · rw [List.append_nil] at h
      rcases group with _ | ⟨g, gs⟩
      · simp at h
      · rcases gs with _ | ⟨g2, gs2⟩
        · simp at h
        · rw [if_pos]
          · simp
          · simp
  | cons c cs ih =>
    intro groups group h
    simp only [groupLoop]
    by_cases hcut : (c.Tag == 'e' && decide (nn < c.I2 - c.I1)) = true
    · rw [if_pos hcut]
      apply ih
      left
      simp
    · rw [if_neg hcut]
      apply ih
      have hperm : (group ++ [c]) ++ cs = group ++ (c :: cs) := by simp
      rcases h with h | h | h
      · exact Or.inl h
      · refine Or.inr (Or.inl ?_)
        rw [hperm]
        exact h
      · refine Or.inr (Or.inr ?_)
        rw [hperm]
        exact h

theorem groupedOpCodes_ne_nil (codes : List OpCode) (n : Nat)
    (h : (∃ c ∈ codes, c.Tag ≠ 'e') ∨ 2 ≤ codes.length) :
    groupedOpCodes codes n ≠ [] := by
  have hcne : codes ≠ [] := by
    rcases h with ⟨c, hc, _⟩ | h2
    · exact List.ne_nil_of_mem hc
    · intro he
      rw [he] at h2
      simp at h2
  rcases codes with _ | ⟨c0, rest⟩
  · exact absurd rfl hcne
  rcases hr : rest.reverse with _ | ⟨e, es⟩
  · have hrnil : rest = [] := by
      have hc := congrArg List.reverse hr
      simpa using hc
    subst hrnil
    have hc0 : c0.Tag ≠ 'e' := by
      rcases h with ⟨c, hc, hct⟩ | h2
      · have hcc : c = c0 := by simpa using hc
        exact hcc ▸ hct
      · simp at h2
    have hbeq : (c0.Tag == 'e') = false := beq_eq_false_iff_ne.mpr hc0
    have heq : groupedOpCodes [c0] n = groupLoop n (n + n) [c0] [] [] := by
      simp [groupedOpCodes, hbeq]
    rw [heq]
    apply groupLoop_ne_nil
    right
    left
    exact ⟨c0, by simp, hc0⟩
  · have heq : groupedOpCodes (c0 :: rest) n =
        groupLoop n (n + n)
          (((if e.Tag == 'e' then
              { e with I2 := min e.I2 (e.I1 + n), J2 := min e.J2 (e.J1 + n) }
            else e) ::
            (es ++ [if c0.Tag == 'e' then
              { c0 with I1 := max c0.I1 (c0.I2 - n), J1 := max c0.J1 (c0.J2 - n) }
            else c0])).reverse) [] [] := by
      simp [groupedOpCodes, hr]
    rw [heq]
    apply groupLoop_ne_nil
    rcases h with ⟨c, hc, hct⟩ | h2
    · refine Or.inr (Or.inl ?_)
      simp only [List.nil_append, List.mem_reverse]
      rcases List.mem_cons.mp hc with hceq | hcr
      · refine ⟨if c0.Tag == 'e' then
            { c0 with I1 := max c0.I1 (c0.I2 - n), J1 := max c0.J1 (c0.J2 - n) }
          else c0, ?_, ?_⟩
        · exact List.mem_cons_of_mem _ (List.mem_append.mpr
            (Or.inr (List.mem_cons_self _ _)))
        · have hc0t : c0.Tag ≠ 'e' := hceq ▸ hct
          split
          · exact hc0t
          · exact hc0t
      · have hcrev : c ∈ e :: es := by
          rw [← hr]
          exact List.mem_reverse.mpr hcr
        rcases List.mem_cons.mp hcrev with hceq | hces
        · refine ⟨if e.Tag == 'e' then
              { e with I2 := min e.I2 (e.I1 + n), J2 := min e.J2 (e.J1 + n) }
            else e, List.mem_cons_self _ _, ?_⟩
          have het : e.Tag ≠ 'e' := hceq ▸ hct
          split
          · exact het
          · exact het
        · exact ⟨c, List.mem_cons_of_mem _ (List.mem_append.mpr (Or.inl hces)), hct⟩
    · refine Or.inr (Or.inr ?_)
      simp only [List.nil_append, List.length_reverse, List.length_cons,
        List.length_append]
      simp

end Difflib

namespace RenderDiff

theorem strApp_ne_empty_left (s t : String) (hs : s ≠ "") : s ++ t ≠ "" := by
  intro h
  apply hs
  have hd : s.data ++ t.data = [] := by
    rw [← String.data_append, h]
  cases s with
  | mk l =>
    have hl : l = [] := (List.append_eq_nil.mp hd).1
    rw [hl]

theorem getUnifiedDiffString_ne_empty (ud : Difflib.UnifiedDiff)
    (hf : ud.FromFile ≠ "")
    (hg : Difflib.groupedOpCodes (Difflib.getOpCodes ud.A ud.B) ud.Context ≠ []) :
    Difflib.getUnifiedDiffString ud ≠ "" := by
  simp only [Difflib.getUnifiedDiffString]
  have hie : (Difflib.groupedOpCodes (Difflib.getOpCodes ud.A ud.B)
      ud.Context).isEmpty = false := List.isEmpty_eq_false.mpr hg
  rw [if_neg (by rw [hie]; exact Bool.false_ne_true)]
  have hcf : (ud.FromFile != "" || ud.FromDate != "") = true := by
    simp [hf]
  rw [if_pos hcf]
  apply strApp_ne_empty_left
  apply strApp_ne_empty_left
  apply strApp_ne_empty_left
  apply strApp_ne_empty_left
  apply strApp_ne_empty_left
  exact by decide

end RenderDiff

namespace RenderDiff

theorem strApp_ne_empty_right (s t : String) (ht : t ≠ "") : s ++ t ≠ "" := by
  intro h
  apply ht
  have hd : s.data ++ t.data = [] := by
    rw [← String.data_append, h]
  cases t with
  | mk l =>
    have hl : l = [] := (List.append_eq_nil.mp hd).2
    rw [hl]

theorem computeDiff_difflibCall_ok (cd : ComponentDiff) :
    ∃ cd2, cd.computeDiff Difflib.difflibCall = .ok cd2 := by
  simp only [ComponentDiff.computeDiff]
  by_cases heq : byteStr cd.BaseYAML = byteStr cd.HeadYAML
  · rw [if_pos heq]
    exact ⟨cd, rfl⟩
  · rw [if_neg heq]
    exact ⟨_, rfl⟩

theorem jobErrors_difflibCall_nil (e : Engine) (jobs : List Job) :
    jobErrors e Difflib.difflibCall jobs = [] := by
  unfold jobErrors
  rw [List.filterMap_eq_nil_iff]
  intro j hj
  simp only [processJob]
  cases hb : e.buildPair (FromComponentPath j.cp j.env) with
  | error err => simp [hb]
  | ok cd =>
    obtain ⟨cd2, hok⟩ := computeDiff_difflibCall_ok cd
    simp only [hb, hok]
    by_cases hdf : cd2.HasDiff = true
    · simp [hdf]
    · simp [hdf]

theorem run_difflibCall_ok (e : Engine)
    (affected : List (Environment × List ComponentPath)) :
    e.Run Difflib.difflibCall affected =
      .ok ⟨jobResults e Difflib.difflibCall (flattenAffected affected),
        ((jobResults e Difflib.difflibCall (flattenAffected affected)).map
          ComponentDiff.Added).sum,
        ((jobResults e Difflib.difflibCall (flattenAffected affected)).map
          ComponentDiff.Removed).sum⟩ := by
  rw [Run_eq, jobErrors_difflibCall_nil]

theorem computeDiff_oneSided_hasDiff (cd : ComponentDiff)
    (hd : byteStr cd.BaseYAML ≠ byteStr cd.HeadYAML)
    (hside : byteStr cd.BaseYAML = "" ∨ byteStr cd.HeadYAML = "") :
    ∃ cd2, cd.computeDiff Difflib.difflibCall = .ok cd2 ∧ cd2.HasDiff = true ∧
      cd2.Path = cd.Path ∧ cd2.Env = cd.Env ∧
      cd2.BaseYAML = cd.BaseYAML ∧ cd2.HeadYAML = cd.HeadYAML := by
  have hA : Difflib.splitLines (byteStr cd.BaseYAML) ≠ [] := splitLines_ne_nil _
  have hB : Difflib.splitLines (byteStr cd.HeadYAML) ≠ [] := splitLines_ne_nil _
  have hone : (Difflib.splitLines (byteStr cd.BaseYAML)).length = 1 ∨
      (Difflib.splitLines (byteStr cd.HeadYAML)).length = 1 := by
    rcases hside with h0 | h0
    · left
      rw [h0]
      rfl
    · right
      rw [h0]
      rfl
  have hAB : Difflib.splitLines (byteStr cd.BaseYAML) ≠
      Difflib.splitLines (byteStr cd.HeadYAML) := by
    intro heq
    apply hd
    rcases hside with h0 | h0
    · have h1 : Difflib.splitLines (byteStr cd.HeadYAML) = ["\n"] := by
        rw [← heq, h0]
        exact splitLines_empty
      rw [h0, splitLines_eq_nl _ h1]
    · have h1 : Difflib.splitLines (byteStr cd.BaseYAML) = ["\n"] := by
        rw [heq, h0]
        exact splitLines_empty
      rw [h0, splitLines_eq_nl _ h1]
  have hg : Difflib.groupedOpCodes
      (Difflib.getOpCodes (Difflib.splitLines (byteStr cd.BaseYAML))
        (Difflib.splitLines (byteStr cd.HeadYAML))) 3 ≠ [] :=
    Difflib.groupedOpCodes_ne_nil _ 3
      (Difflib.getOpCodes_nontrivial _ _ hA hB hone hAB)
  have hf2 : cd.Path ++ " (base)" ≠ "" :=
    strApp_ne_empty_right cd.Path " (base)" (by decide)
  have htext : Difflib.getUnifiedDiffString
      { A := Difflib.splitLines (byteStr cd.BaseYAML)
        B := Difflib.splitLines (byteStr cd.HeadYAML)
        FromFile := cd.Path ++ " (base)"
        ToFile := cd.Path ++ " (head)"
        FromDate := "", ToDate := "", Eol := "", Context := 3 } ≠ "" :=
    getUnifiedDiffString_ne_empty _ hf2 hg
  simp only [ComponentDiff.computeDiff]
  rw [if_neg hd]
  exact ⟨_, rfl, bne_iff_ne.mpr htext, rfl, rfl, rfl, rfl⟩

/-- C8 (amended): a component present on exactly one ref with non-empty
rendered content there always appears in the run's result, carrying its
one-sided `BaseYAML`/`HeadYAML` pair and a non-empty `Diff`, in both the
added-at-HEAD and the removed-from-base directions (with the real library
call the run always succeeds, since the in-memory writer cannot fail).  On
the claim's concrete scenario — base `DirExists` false, HEAD builds
"x: y\n" — the single result has `BaseYAML` absent, `HeadYAML` as built, a
non-empty diff, `Added` 1 and `Removed` 0; symmetrically, a base-only
component rendering "a: 1\n" gives `Added` 0 and `Removed` 1.  The
claim's stronger reading that the diff reflects entirely added content is
refuted by the counterexample with a head-only component whose content
lacks a trailing newline. -/
theorem oneSided_included_nonEmptyDiff :
    (∀ (e : Engine) (affected : List (Environment × List ComponentPath))
        (j : Job) (cd : ComponentDiff),
      j ∈ flattenAffected affected →
      e.buildPair (FromComponentPath j.cp j.env) = .ok cd →
      ((cd.BaseYAML = none ∧ ∃ h, cd.HeadYAML = some h ∧ h ≠ "") ∨
       (cd.HeadYAML = none ∧ ∃ b, cd.BaseYAML = some b ∧ b ≠ "")) →
      ∃ dr, e.Run Difflib.difflibCall affected = .ok dr ∧
        ∃ cd2 ∈ dr.Diffs, cd2.Path = cd.Path ∧ cd2.Env = cd.Env ∧
          cd2.BaseYAML = cd.BaseYAML ∧ cd2.HeadYAML = cd.HeadYAML ∧
          cd2.HasDiff = true) ∧
    barEngine.Run Difflib.difflibCall barAffected = .ok ⟨[barCd], 1, 0⟩ ∧
    barCd.BaseYAML = none ∧ barCd.HeadYAML = some "x: y\n" ∧
    barCd.HasDiff = true ∧ barCd.Added = 1 ∧ barCd.Removed = 0 ∧
    remEngine.Run Difflib.difflibCall [("staging", [remCp])] = .ok ⟨[remCd], 0, 1⟩ ∧
    remCd.HeadYAML = none ∧ remCd.BaseYAML = some "a: 1\n" ∧
    remCd.HasDiff = true ∧ remCd.Added = 0 ∧ remCd.Removed = 1 := by
  refine ⟨?_, rfl, rfl, rfl, rfl, rfl, rfl, rfl, rfl, rfl, rfl, rfl, rfl⟩
  intro e affected j cd hj hb hside
  have hdne : byteStr cd.BaseYAML ≠ byteStr cd.HeadYAML := by
    rcases hside with ⟨h0, h, hh, hne0⟩ | ⟨h0, b, hbb, hne0⟩
    · rw [h0, hh]
      exact fun hc => hne0 hc.symm
    · rw [h0, hbb]
      exact fun hc => hne0 hc
  have hs0 : byteStr cd.BaseYAML = "" ∨ byteStr cd.HeadYAML = "" := by
    rcases hside with ⟨h0, _, _, _⟩ | ⟨h0, _, _, _⟩
    · left
      rw [h0]
      rfl
    · right
      rw [h0]
      rfl
  obtain ⟨cd2, hok, hdf, hp, henv, hby, hhy⟩ := computeDiff_oneSided_hasDiff cd hdne hs0
  have hpj : processJob e Difflib.difflibCall j = .diffed cd2 := by
    simp only [processJob, hb, hok]
    rw [if_pos hdf]
  refine ⟨_, run_difflibCall_ok e affected, cd2, ?_, hp, henv, hby, hhy, hdf⟩
  show cd2 ∈ jobResults e Difflib.difflibCall (flattenAffected affected)
  unfold jobResults
  exact List.mem_filterMap.mpr ⟨j, hj, by simp only [hpj]⟩

/-- Witness for C8's amended theorem, applied at the concrete
removal-direction engine: the base-only component rendering "a: 1\n"
appears in the run's result with a non-empty diff. -/
theorem oneSided_included_nonEmptyDiff_witness :
    ∃ dr, remEngine.Run Difflib.difflibCall [("staging", [remCp])] = .ok dr ∧
      ∃ cd2 ∈ dr.Diffs,
        cd2.Path = (⟨"components/rem", "", "staging", some "a: 1\n", none, "", 0, 0⟩ :
          ComponentDiff).Path ∧
        cd2.Env = (⟨"components/rem", "", "staging", some "a: 1\n", none, "", 0, 0⟩ :
          ComponentDiff).Env ∧
        cd2.BaseYAML = (⟨"components/rem", "", "staging", some "a: 1\n", none, "", 0, 0⟩ :
          ComponentDiff).BaseYAML ∧
        cd2.HeadYAML = (⟨"components/rem", "", "staging", some "a: 1\n", none, "", 0, 0⟩ :
          ComponentDiff).HeadYAML ∧
        cd2.HasDiff = true :=
  oneSided_included_nonEmptyDiff.1 remEngine [("staging", [remCp])] remJob
    ⟨"components/rem", "", "staging", some "a: 1\n", none, "", 0, 0⟩
    (by decide) rfl (Or.inr ⟨rfl, "a: 1\n", rfl, by decide⟩)

/-- C8 counterexample: with base absent and HEAD content lacking the
trailing newline, the head-only component's diff is not entirely added
content — the blank sentinel line of the empty base is removed, so
`Removed` is 1 rather than 0. -/
theorem headOnly_removed_line_cex :
    quxEngine.Run Difflib.difflibCall quxAffected = .ok ⟨[quxCd], 1, 1⟩ ∧
    quxCd.BaseYAML = none ∧ quxCd.HeadYAML = some "x: y" ∧
    quxCd.HasDiff = true ∧ quxCd.Added = 1 ∧ quxCd.Removed = 1 :=
  ⟨rfl, rfl, rfl, rfl, rfl, rfl⟩

end RenderDiff
